import Mathlib

/-!
Verification development for the memflow-registry plugin registry.

The definitions below are a shallow embedding of the Rust sources:
  * `src/src/storage/database.rs`        (the in-memory plugin catalog)
  * `src/memflow-registry/src/storage/mod.rs` (the content-addressed object store)
  * `src/memflow-registry-shared/src/pki.rs`  (hex decoding / signature checking)
  * `src/memflow-registry-shared/src/plugin_uri.rs` (plugin URI parser/printer)
  * `src/src/storage/plugin_analyzer.rs` (binary magic check, ELF relocations)

Machine integers are modelled as `Nat`/`Int` with explicit wrap-around where
the source wraps; fallible operations return `Except`; operations that can
panic in Rust (`unwrap`, `unreachable!`, out-of-bounds slicing) return
`Option` with `none` marking the panic.  Strings are modelled as Lean
`String`s or `List Char` (the strings involved - digests, hex signatures,
plugin names - are ASCII, so byte indexing and char indexing coincide).
-/

deriving instance DecidableEq for Except

namespace MemflowRegistry

/-- Error type, mirroring `error.rs` (`enum Error`).  Only the constructors
reachable from the embedded code are carried. -/
inductive Error where
  | Unknown (msg : String)
  | IOErr (msg : String)
  | Parse (msg : String)
  | NotFound (msg : String)
  | AlreadyExists (msg : String)
  | NotImplemented (msg : String)
  | Signature (msg : String)
deriving DecidableEq

/-- `enum PluginFileType` from `plugin_analyzer.rs`. -/
inductive PluginFileType where
  | pe
  | elf
  | mach
deriving DecidableEq

/-- `enum PluginArchitecture` from `plugin_analyzer.rs`. -/
inductive PluginArchitecture where
  | unknown (raw : Nat)
  | x86
  | x86_64
  | arm
  | arm64
deriving DecidableEq

/-- `struct PluginDescriptor` / `PluginDescriptorInfo`: the six-field
descriptor extracted from a binary.  `plugin_version` is an `i32`, modelled
as `Int` (it is only ever compared, never wrapped). -/
structure PluginDescriptorInfo where
  file_type : PluginFileType
  architecture : PluginArchitecture
  plugin_version : Int
  name : String
  version : String
  description : String
deriving DecidableEq

/-- `struct PluginVariant` from `database.rs`.  `created_at` is a chrono
`NaiveDateTime`; only its linear order matters, so it is modelled as `Int`
(microseconds since epoch). -/
structure PluginVariant where
  digest : String
  signature : String
  created_at : Int
  descriptor : PluginDescriptorInfo
deriving DecidableEq

/-- `struct PluginMetadata` from `storage/mod.rs` (the `.meta` sidecar). -/
structure PluginMetadata where
  digest : String
  signature : String
  created_at : Int
  descriptors : List PluginDescriptorInfo
deriving DecidableEq

/-- `struct PluginDatabaseFindParams` from `database.rs`. -/
structure PluginDatabaseFindParams where
  version : Option String := none
  memflow_plugin_version : Option Int := none
  file_type : Option PluginFileType := none
  architecture : Option PluginArchitecture := none
  skip : Option Nat := none
  limit : Option Nat := none
deriving DecidableEq

/-- `struct PluginDatabase`: `HashMap<String, Vec<PluginVariant>>`, modelled
as an association list (the embedded operations never depend on hash order). -/
structure PluginDatabase where
  plugins : List (String × List PluginVariant)
deriving DecidableEq

/-- Association-list lookup (model of `HashMap::get`). -/
def lookupA (name : String) : List (String × List PluginVariant) → Option (List PluginVariant)
  | [] => none
  | (k, v) :: rest => if k = name then some v else lookupA name rest

/-- Model of `HashMap::entry(name).or_default()` followed by writing the
bucket back: replaces the bucket of `name`, or appends a new entry. -/
def setBucketA (name : String) (b : List PluginVariant) :
    List (String × List PluginVariant) → List (String × List PluginVariant)
  | [] => [(name, b)]
  | (k, v) :: rest =>
      if k = name then (k, b) :: rest else (k, v) :: setBucketA name b rest

/-- The bucket stored under `name` (empty when absent), as read by
`plugin_variants` via `self.plugins.get(plugin_name)`. -/
def PluginDatabase.getBucket (db : PluginDatabase) (name : String) : List PluginVariant :=
  (lookupA name db.plugins).getD []

def PluginDatabase.setBucket (db : PluginDatabase) (name : String)
    (b : List PluginVariant) : PluginDatabase :=
  ⟨setBucketA name b db.plugins⟩

def emptyDB : PluginDatabase := ⟨[]⟩

/-- Rust `Ord::cmp` on a linearly ordered type, for `Int`. -/
def intCmp (a b : Int) : Ordering :=
  if a < b then .lt else if a = b then .eq else .gt

/-- Lexicographic comparison of `(plugin_version, created_at)` keys, i.e.
Rust `Ord` on the tuple `(i32, NaiveDateTime)`. -/
def lexCmp (a b : Int × Int) : Ordering :=
  match intCmp a.1 b.1 with
  | .eq => intCmp a.2 b.2
  | o => o

/-- The sort key of a stored variant: `(entry.descriptor.plugin_version,
entry.created_at)` as used in `insert_all`. -/
def keyOf (v : PluginVariant) : Int × Int :=
  (v.descriptor.plugin_version, v.created_at)

/-- Rust `slice::binary_search_by` (the exact stdlib bisection loop):
`f` classifies an element against the target; returns `.inl mid` for an
exact hit (`Ok(mid)`) and `.inr pos` for the insertion point (`Err(pos)`).
The `none` branch of `get?` is unreachable while `right ≤ xs.length`. -/
def binarySearchGo (f : α → Ordering) (xs : List α) (left right : Nat) : Nat ⊕ Nat :=
  if _h : left < right then
    match xs.get? (left + (right - left) / 2) with
    | none => Sum.inr left
    | some x =>
      match f x with
      | .lt => binarySearchGo f xs (left + (right - left) / 2 + 1) right
      | .gt => binarySearchGo f xs left (left + (right - left) / 2)
      | .eq => Sum.inl (left + (right - left) / 2)
  else Sum.inr left
termination_by right - left
decreasing_by
  · have hd : (right - left) / 2 < right - left := Nat.div_lt_self (by omega) (by omega)
    omega
  · have hd : (right - left) / 2 ≤ right - left := Nat.div_le_self _ _
    omega

def binarySearchBy (f : α → Ordering) (xs : List α) : Nat ⊕ Nat :=
  binarySearchGo f xs 0 xs.length

/-- Rust `Vec::insert(pos, v)`. -/
def vecInsert (pos : Nat) (v : α) (xs : List α) : List α :=
  xs.take pos ++ v :: xs.drop pos

/-- The loop body of `PluginDatabase::insert_all` over the remaining
descriptors.  `none` models the two panics: `descriptors.first().unwrap()`
(unreachable: the loop only runs when descriptors exist) and the
`Ok(_) => unreachable!()` arm of the binary search. -/
def insertAllGo (metadata : PluginMetadata) : PluginDatabase → List PluginDescriptorInfo → Option PluginDatabase
  | db, [] => some db
  | db, descriptor :: rest =>
    match metadata.descriptors.head? with
    | none => none
    | some first =>
      let entry := db.getBucket descriptor.name
      let searchKey := (first.plugin_version, metadata.created_at)
      -- binary_search_by_key(&Reverse(search_key), |e| Reverse(key(e)));
      -- Reverse(a).cmp(Reverse(b)) = b.cmp(a), so the classifier is
      -- searchKey.cmp(key(entry)).
      match binarySearchBy (fun e => lexCmp searchKey (keyOf e)) entry with
      | .inl _ => none
      | .inr pos =>
        let v : PluginVariant :=
          ⟨metadata.digest, metadata.signature, metadata.created_at, descriptor⟩
        insertAllGo metadata (db.setBucket descriptor.name (vecInsert pos v entry)) rest

/-- `PluginDatabase::insert_all`. -/
def PluginDatabase.insertAll (db : PluginDatabase) (metadata : PluginMetadata) :
    Option PluginDatabase :=
  insertAllGo metadata db metadata.descriptors

/-- `PluginDatabase::delete_by_digest`: `retain(|v| v.digest != digest)`
in every bucket. -/
def PluginDatabase.deleteByDigest (db : PluginDatabase) (digest : String) : PluginDatabase :=
  ⟨db.plugins.map (fun p => (p.1, p.2.filter (fun v => v.digest ≠ digest)))⟩

/-- The per-variant filter closure of `plugin_variants` (the second
`.filter`).  Returns `none` when evaluating it panics: `&p.digest[..version.len()]`
with `version.len() > p.digest.len()` is an out-of-bounds string slice.
Rust `&&` short-circuits, so the slice is only taken when
`version != descriptor.version`. -/
def variantMatches (params : PluginDatabaseFindParams) (p : PluginVariant) : Option Bool :=
  match params.version with
  | some version =>
      if version = p.descriptor.version then
        some (variantMatchesRest params p)
      else if version.length ≤ p.digest.length then
        if version = (p.digest.take version.length) then
          some (variantMatchesRest params p)
        else some false
      else none
  | none => some (variantMatchesRest params p)
where
  /-- The remaining (non-panicking) equality filters of the closure. -/
  variantMatchesRest (params : PluginDatabaseFindParams) (p : PluginVariant) : Bool :=
    (match params.memflow_plugin_version with
     | some v => v = p.descriptor.plugin_version
     | none => true) &&
    (match params.file_type with
     | some ft => ft = p.descriptor.file_type
     | none => true) &&
    (match params.architecture with
     | some arch => arch = p.descriptor.architecture
     | none => true)

/-- The iterator chain `.filter(name).filter(closure).take(limit).collect()`
of `plugin_variants`, with Rust's lazy pull semantics: `take` stops pulling
once `limit` items are collected, so later entries are never evaluated by
the closure.  `none` models a panic inside the closure. -/
def collectVariants (pluginName : String) (params : PluginDatabaseFindParams) :
    List PluginVariant → Nat → Option (List PluginVariant)
  | _, 0 => some []
  | [], _ + 1 => some []
  | p :: rest, limit + 1 =>
      if p.descriptor.name = pluginName then
        match variantMatches params p with
        | none => none
        | some true => (collectVariants pluginName params rest limit).map (p :: ·)
        | some false => collectVariants pluginName params rest (limit + 1)
      else collectVariants pluginName params rest (limit + 1)

/-- `PluginDatabase::plugin_variants`.  `none` = the query panics. -/
def PluginDatabase.pluginVariants (db : PluginDatabase) (pluginName : String)
    (params : PluginDatabaseFindParams) : Option (List PluginVariant) :=
  match lookupA pluginName db.plugins with
  | none => some []
  | some variants =>
      collectVariants pluginName params (variants.drop (params.skip.getD 0))
        ((params.limit.getD 5).min 50)

/-!  ## Object store (`Storage` in `memflow-registry/src/storage/mod.rs`)

The filesystem root is modelled as two association lists keyed by digest:
`{digest}.plugin` files (raw bytes) and `{digest}.meta` sidecars
(deserialized metadata).  External collaborators - the signature verifier,
the descriptor parser, the SHA-256 digest, and the clock - are passed in as
explicit parameters, mirroring the control flow of `Storage::upload`.  -/

structure StorageState where
  plugins : List (String × List Nat)
  metas : List (String × PluginMetadata)
  db : PluginDatabase
deriving DecidableEq

/-- Generic association-list lookup used for the modelled filesystem. -/
def fsLookup (k : String) : List (String × α) → Option α
  | [] => none
  | (k2, v) :: rest => if k2 = k then some v else fsLookup k rest

/-- `File::create` (creates or truncates). -/
def fsWrite (k : String) (v : α) : List (String × α) → List (String × α)
  | [] => [(k, v)]
  | (k2, w) :: rest => if k2 = k then (k2, v) :: rest else (k2, w) :: fsWrite k v rest

/-- `tokio::fs::remove_file`. -/
def fsRemove (k : String) : List (String × α) → List (String × α)
  | [] => []
  | (k2, w) :: rest => if k2 = k then rest else (k2, w) :: fsRemove k rest

/-- The external collaborators of `Storage::upload`. -/
structure UploadCfg where
  /-- `SignatureVerifier::is_valid` reduced to its success bit; `none`
  models a storage with no verifier configured. -/
  verifier : Option (List Nat → String → Bool)
  /-- `plugin_analyzer::parse_descriptors`. -/
  parse_descriptors : List Nat → Except Error (List PluginDescriptorInfo)
  /-- `sha256::digest`, producing the lowercase-hex digest string. -/
  sha256 : List Nat → String
  /-- `Utc::now().naive_utc()`. -/
  now : Int

/-- `Storage::upload`.  Returns the `Result` value together with the state
after the call; `none` models a panic inside `insert_all`. -/
def Storage.upload (cfg : UploadCfg) (st : StorageState) (bytes : List Nat)
    (signature : String) : Option (Except Error Unit × StorageState) :=
  if (match cfg.verifier with
      | some isValid => !isValid bytes signature
      | none => false) then
    some (.error (.Signature "file signature is invalid"), st)
  else
    match cfg.parse_descriptors bytes with
    | .error e => some (.error e, st)
    | .ok descriptors =>
      let digest := cfg.sha256 bytes
      if (fsLookup digest st.plugins).isSome then
        some (.error (.AlreadyExists "plugin with the same digest was already added"), st)
      else
        let st1 := { st with plugins := fsWrite digest bytes st.plugins }
        let metadata : PluginMetadata :=
          ⟨digest, signature, cfg.now, descriptors⟩
        let st2 := { st1 with metas := fsWrite digest metadata st1.metas }
        match st2.db.insertAll metadata with
        | none => none
        | some db2 => some (.ok (), { st2 with db := db2 })

/-- `Storage::delete`: checks that `{digest}.plugin` exists, removes the
digest's catalog entries, then removes `{digest}.plugin`.  (Note: the source
never touches the `{digest}.meta` sidecar.) -/
def Storage.delete (st : StorageState) (digest : String) :
    Except Error Unit × StorageState :=
  if (fsLookup digest st.plugins).isNone then
    (.error (.NotFound "digest was not found"), st)
  else
    let db2 := st.db.deleteByDigest digest
    (.ok (), { st with db := db2, plugins := fsRemove digest st.plugins })

/-!  ## Signature hex handling (`memflow-registry-shared/src/pki.rs`)  -/

/-- `str::is_char_boundary` at a position inside the string holding byte
`b`: the byte is not a UTF-8 continuation byte (`(b as i8) >= -0x40`).
Positions `0` and `len` are always boundaries and are handled at the call
sites. -/
def isCharBoundaryByte (b : Nat) : Bool := decide (b < 128 ∨ 192 ≤ b)

/-- `(c as char).to_digit(16)` on one byte of the chunk: `0`-`9` are bytes
48-57, `a`-`f` are 97-102, `A`-`F` are 65-70. -/
def hexDigitVal (b : Nat) : Option Nat :=
  if 48 ≤ b ∧ b ≤ 57 then some (b - 48)
  else if 97 ≤ b ∧ b ≤ 102 then some (b - 87)
  else if 65 ≤ b ∧ b ≤ 70 then some (b - 55)
  else none

/-- The digit-accumulation loop of `u8::from_str_radix(.., 16)`, with the
`u8` overflow check. -/
def parseDigitsGo (acc : Nat) : List Nat → Option Nat
  | [] => some acc
  | b :: rest =>
    match hexDigitVal b with
    | none => none
    | some d => if acc * 16 + d ≤ 255 then parseDigitsGo (acc * 16 + d) rest else none

/-- `u8::from_str_radix(s, 16)` over the chunk's bytes, for the unsigned
type `u8`: an optional leading `+` (byte 43), then one or more hex digits
in either case, with the accumulator checked against `u8::MAX`.  A leading
`-` is only consumed for signed types, so here it falls through to the
digit loop and fails as a digit. -/
def fromStrRadix16U8 (s : List Nat) : Option Nat :=
  match s with
  | [] => none
  | b0 :: rest =>
    if b0 = 43 then (if rest = [] then none else parseDigitsGo 0 rest)
    else parseDigitsGo 0 (b0 :: rest)

/-- The `(0..s.len()).step_by(2)` loop of `decode_hex` over the signature's
UTF-8 bytes: slice the two-byte chunk `&s[i..i + 2]` (`none` models the
slice panic when an end of the range is not a character boundary, or - for
an odd tail - past the end), parse it, and let `collect::<Result<..>>`
short-circuit on the first parse error.  `first` marks position 0, which
is always a boundary. -/
def decodeHexGo (first : Bool) : List Nat → Option (Except Error (List Nat))
  | [] => some (.ok [])
  | [_] => none
  | b0 :: b1 :: rest =>
    if (first || isCharBoundaryByte b0) &&
        (decide (rest = []) || isCharBoundaryByte (rest.headD 0)) then
      match fromStrRadix16U8 [b0, b1] with
      | none => some (.error (.Parse "invalid digit found in string"))
      | some v =>
        match decodeHexGo false rest with
        | none => none
        | some (.error e) => some (.error e)
        | some (.ok bs) => some (.ok (v :: bs))
    else none

/-- `decode_hex` from `pki.rs` over the signature's UTF-8 bytes (`s.len()`
is the byte length).  `none` models the slice panic; a `ParseIntError` is
converted to `Error::Parse` by the `From` impl in `error.rs` (the carried
message is the error's display text). -/
def decode_hex (s : List Nat) : Option (Except Error (List Nat)) :=
  if s.length < 2 ∨ s.length % 2 ≠ 0 then
    some (.error (.Parse "input must have a length that is a multiple 2"))
  else decodeHexGo true s

/-- `SignatureVerifier::is_valid`.  The DER parser and the ECDSA
verification of the `k256` crate are external cryptography, passed in as
oracles; a failure of either is a `k256::ecdsa::Error`, which `error.rs`
converts to `Error::Signature`; a panic in `decode_hex` propagates. -/
def is_valid (derOk : List Nat → Bool) (verifyOk : List Nat → List Nat → Bool)
    (bytes : List Nat) (signature : List Nat) : Option (Except Error Unit) :=
  match decode_hex signature with
  | none => none
  | some (.error e) => some (.error e)
  | some (.ok hex) =>
    if !derOk hex then some (.error (.Signature "signature error"))
    else if !verifyOk bytes hex then some (.error (.Signature "signature error"))
    else some (.ok ())

/-- ASCII uppercasing of one byte (the lowercase letters are bytes
97-122); bytes of a multi-byte character are 128 or above and unchanged. -/
def byteToUpper (b : Nat) : Nat := if 97 ≤ b ∧ b ≤ 122 then b - 32 else b

/-!  ## Plugin URIs (`memflow-registry-shared/src/plugin_uri.rs`)

Strings are `List Char`; `split` / `join` / `starts_with` are modelled
directly.  -/

structure PluginUri where
  registry : Option (List Char)
  image : List Char
  version : Option (List Char)
deriving DecidableEq

/-- Rust `str::split(c)` (for a one-char pattern): e.g. splitting `""`
yields `[""]` and splitting `"a//b"` on `/` yields `["a","","b"]`. -/
def splitCh (c : Char) : List Char → List (List Char)
  | [] => [[]]
  | x :: xs =>
    if x = c then [] :: splitCh c xs
    else
      match splitCh c xs with
      | [] => [[x]]
      | y :: ys => (x :: y) :: ys

/-- Rust `[&str]::join(c)`. -/
def joinCh (c : Char) : List (List Char) → List Char
  | [] => []
  | [x] => x
  | x :: y :: ys => x ++ c :: joinCh c (y :: ys)

def httpPrefix : List Char := ['h', 't', 't', 'p', ':', '/', '/']

def httpsPrefix : List Char := ['h', 't', 't', 'p', 's', ':', '/', '/']

/-- `PluginUri::from_str`.  The source never returns `Err`, so the model is
total. -/
def PluginUri.fromStr (s : List Char) : PluginUri :=
  let parts := splitCh '/' s
  let p1 : Option (List Char) × List Char :=
    match parts.getLast? with
    | some image =>
      let registryParts := parts.dropLast
      if registryParts ≠ [] then
        let registryUrl := joinCh '/' registryParts
        if httpPrefix.isPrefixOf registryUrl || httpsPrefix.isPrefixOf registryUrl then
          (some registryUrl, image)
        else
          (some (httpsPrefix ++ registryUrl), image)
      else (none, image)
    | none => (none, s)
  match splitCh ':' p1.2 with
  | image :: rest =>
    { registry := p1.1, image := image,
      version := if rest ≠ [] then some (joinCh ':' rest) else none }
  | [] => { registry := p1.1, image := p1.2, version := none }

/-- `impl Display for PluginUri`. -/
def PluginUri.display (p : PluginUri) : List Char :=
  (match p.registry with
   | some r => r ++ ['/']
   | none => []) ++
  p.image ++
  (match p.version with
   | some v => ':' :: v
   | none => [])

/-!  ## Binary analysis (`src/src/storage/plugin_analyzer.rs`)

Byte buffers are `List Nat` (each entry a `u8` value); `readLE`/`writeLE`
model the little-endian POD reads and writes of the `dataview` crate, which
panic (here: `none`) when out of bounds.  -/

/-- Little-endian value of a byte list. -/
def leVal : List Nat → Nat
  | [] => 0
  | b :: rest => b % 256 + 256 * leVal rest

/-- `DataView::read` of a `width`-byte little-endian unsigned integer. -/
def readLE (bytes : List Nat) (off width : Nat) : Option Nat :=
  if off + width ≤ bytes.length then some (leVal ((bytes.drop off).take width))
  else none

/-- Little-endian byte decomposition at a fixed width. -/
def leBytes : Nat → Nat → List Nat
  | 0, _ => []
  | w + 1, v => v % 256 :: leBytes w (v / 256)

/-- `DataView::write` of a `width`-byte little-endian unsigned integer
(only ever invoked after an in-bounds read at the same location). -/
def writeLE (bytes : List Nat) (off width val : Nat) : List Nat :=
  bytes.take off ++ leBytes width val ++ bytes.drop (off + width)

/-- A `goblin` relocation record as consumed by `elf_apply_relocs`. -/
structure Reloc where
  r_offset : Nat
  r_type : Nat
  r_addend : Option Int
deriving DecidableEq

/-- The per-relocation body of `elf_apply_relocs::<N, _>` for a record of
`w`-byte pointer width (`w` = 4 or 8).  `none` models the panics: the
`DataView` bounds assertion and the `num_traits::cast(..).unwrap()` calls
(which fail when the addend, or its negation, does not fit the `w`-byte
unsigned type; negating `i64::MIN` itself overflows). -/
def elfApplyReloc (w : Nat) (vaStart vaEnd : Nat) (reloc : Reloc)
    (obj : List Nat) : Option (Except Error (List Nat)) :=
  if vaStart ≤ reloc.r_offset ∧ reloc.r_offset < vaEnd then
    let fieldOffset := reloc.r_offset - vaStart
    match readLE obj fieldOffset w with
    | none => none
    | some value =>
      if value ≠ 0 then some (.ok obj)
      else if reloc.r_type ≠ 8 ∧ reloc.r_type ≠ 23 ∧ reloc.r_type ≠ 1027 then
        some (.error (.Parse "only relative relocations are supported right now"))
      else
        let addend := reloc.r_addend.getD 0
        if 0 < addend then
          -- `value.wrapping_add(cast(addend).unwrap())`
          if addend < 2 ^ (8 * w) then
            some (.ok (writeLE obj fieldOffset w ((value + addend.toNat) % 2 ^ (8 * w))))
          else none
        else
          -- `value.wrapping_sub(cast(-addend).unwrap())`
          if addend = -(2 ^ 63) then none
          else if -addend < 2 ^ (8 * w) then
            some (.ok (writeLE obj fieldOffset w
              ((value + (2 ^ (8 * w) - (-addend).toNat)) % 2 ^ (8 * w))))
          else none
  else some (.ok obj)

/-- The relocation loop of `elf_apply_relocs` over a flat list of
relocations, threading the record and propagating error or panic. -/
def elfApplyRelocsList (w vaStart vaEnd : Nat) :
    List Reloc → List Nat → Option (Except Error (List Nat))
  | [], obj => some (.ok obj)
  | r :: rest, obj =>
    match elfApplyReloc w vaStart vaEnd r obj with
    | none => none
    | some (.error e) => some (.error e)
    | some (.ok obj2) => elfApplyRelocsList w vaStart vaEnd rest obj2

/-- `elf_apply_relocs`: both nested loops (`shdr_relocs` sections, then
their relocations) process relocations in order, i.e. the flattened list. -/
def elf_apply_relocs (w vaStart vaEnd : Nat) (shdrRelocs : List (List Reloc))
    (obj : List Nat) : Option (Except Error (List Nat)) :=
  elfApplyRelocsList w vaStart vaEnd shdrRelocs.flatten obj

/-- `is_binary` from `plugin_analyzer.rs`: reads the first four bytes as a
little-endian `u32` (panicking - `none` - when fewer than four bytes exist)
and matches the known magics in source order: PE (`MZ` in the low 16 bits),
the four Mach-O magics, then ELF. -/
def is_binary (bytes : List Nat) : Option (Except Error Unit) :=
  match readLE bytes 0 4 with
  | none => none
  | some tag =>
    if tag % 65536 = 0x5A4D then some (.ok ())
    else if tag = 0xfeedface || tag = 0xcefaedfe || tag = 0xfeedfacf || tag = 0xcffaedfe then
      some (.ok ())
    else if tag = 0x464c457f then some (.ok ())
    else some (.error (.Parse "unknown binary format"))

/-!  ## Theorems  -/

/-- C10: `is_binary` is total exactly on inputs of length at least 4: on
shorter inputs the unconditional 4-byte read panics; on longer inputs it
returns ok iff the first four bytes (as a little-endian `u32` tag) match
one of the accepted magics - low 16 bits `0x5A4D` (PE), one of the four
Mach-O magics, or the ELF magic `0x7F 'E' 'L' 'F'` (tag `0x464C457F`) - and
`Error::Parse` otherwise. -/
theorem is_binary_total_iff_magic (bytes : List Nat) :
    (bytes.length < 4 → is_binary bytes = none) ∧
    (4 ≤ bytes.length →
      ((is_binary bytes = some (.ok ()) ↔
        (leVal (bytes.take 4) % 65536 = 0x5A4D ∨ leVal (bytes.take 4) = 0xfeedface ∨
         leVal (bytes.take 4) = 0xcefaedfe ∨ leVal (bytes.take 4) = 0xfeedfacf ∨
         leVal (bytes.take 4) = 0xcffaedfe ∨ leVal (bytes.take 4) = 0x464c457f)) ∧
       (¬ (leVal (bytes.take 4) % 65536 = 0x5A4D ∨ leVal (bytes.take 4) = 0xfeedface ∨
         leVal (bytes.take 4) = 0xcefaedfe ∨ leVal (bytes.take 4) = 0xfeedfacf ∨
         leVal (bytes.take 4) = 0xcffaedfe ∨ leVal (bytes.take 4) = 0x464c457f) →
        is_binary bytes = some (.error (.Parse "unknown binary format"))))) := by
  constructor
  · intro h
    simp only [is_binary, readLE]
    rw [if_neg (by omega)]
  · intro h
    have hread : readLE bytes 0 4 = some (leVal (bytes.take 4)) := by
      simp only [readLE]
      rw [if_pos (by omega)]
      simp
    simp only [is_binary, hread]
    constructor
    · constructor
      · intro hok
        by_contra hmag
        push_neg at hmag
        obtain ⟨h1, h2, h3, h4, h5, h6⟩ := hmag
        rw [if_neg h1] at hok
        rw [if_neg (by simp [h2, h3, h4, h5])] at hok
        rw [if_neg h6] at hok
        simp at hok
      · intro hmag
        split_ifs with g1 g2 g3
        · rfl
        · rfl
        · rfl
        · exfalso
          simp only [Bool.or_eq_true, decide_eq_true_eq, not_or] at g2
          obtain ⟨⟨⟨ga, gb⟩, gc⟩, gd⟩ := g2
          rcases hmag with hc | hc | hc | hc | hc | hc
          · exact g1 hc
          · exact ga hc
          · exact gb hc
          · exact gc hc
          · exact gd hc
          · exact g3 hc
    · intro hmag
      push_neg at hmag
      obtain ⟨h1, h2, h3, h4, h5, h6⟩ := hmag
      rw [if_neg h1, if_neg (by simp [h2, h3, h4, h5]), if_neg h6]

/-- Witness for C10 at concrete inputs: the ELF magic is accepted, and a
2-byte input panics. -/
theorem is_binary_total_iff_magic_witness :
    is_binary [0x7f, 0x45, 0x4c, 0x46] = some (.ok ()) ∧ is_binary [1, 2] = none :=
  ⟨((is_binary_total_iff_magic [0x7f, 0x45, 0x4c, 0x46]).2 (by decide)).1.mpr (by decide),
   (is_binary_total_iff_magic [1, 2]).1 (by decide)⟩

/-- A one-variant storage state used to evaluate `Storage::delete`. -/
def deleteDemoDescriptor : PluginDescriptorInfo :=
  ⟨.pe, .x86_64, 1, "coredump", "0.2.0", "demo"⟩

def deleteDemoVariant : PluginVariant :=
  ⟨"d1", "sig", 10, deleteDemoDescriptor⟩

def deleteDemoMetadata : PluginMetadata :=
  ⟨"d1", "sig", 10, [deleteDemoDescriptor]⟩

def deleteDemoState : StorageState :=
  ⟨[("d1", [0x4d, 0x5a])], [("d1", deleteDemoMetadata)],
   ⟨[("coredump", [deleteDemoVariant])]⟩⟩

/-- C1 (divergence witness): on a state holding both `d1.plugin` and
`d1.meta`, `Storage::delete` succeeds, removes the catalog variants and the
`.plugin` file, but leaves the `.meta` sidecar on disk - the source removes
only `file_name` with the `plugin` extension and never touches the sidecar,
so "afterwards neither file exists" fails for the sidecar. -/
theorem delete_leaves_meta_sidecar :
    (Storage.delete deleteDemoState "d1").1 = .ok () ∧
    fsLookup "d1" (Storage.delete deleteDemoState "d1").2.plugins = none ∧
    (Storage.delete deleteDemoState "d1").2.db.getBucket "coredump" = [] ∧
    fsLookup "d1" (Storage.delete deleteDemoState "d1").2.metas = some deleteDemoMetadata := by
  refine ⟨rfl, ?_, ?_, ?_⟩ <;> decide

/-- C4: `Storage::upload` is atomic on its early failures: with a
configured verifier that rejects the pair it returns `Error::Signature`
and leaves the state untouched; when the verifier passes (or none is
configured) and descriptor parsing fails, it returns that parse error and
leaves the state untouched. -/
theorem upload_early_failures_atomic (cfg : UploadCfg) (st : StorageState)
    (bytes : List Nat) (sig : String) :
    (∀ f, cfg.verifier = some f → f bytes sig = false →
      Storage.upload cfg st bytes sig =
        some (.error (.Signature "file signature is invalid"), st)) ∧
    (∀ e, (cfg.verifier = none ∨ ∃ f, cfg.verifier = some f ∧ f bytes sig = true) →
      cfg.parse_descriptors bytes = .error e →
      Storage.upload cfg st bytes sig = some (.error e, st)) := by
  constructor
  · intro f hf hrej
    simp [Storage.upload, hf, hrej]
  · intro e hver hparse
    rcases hver with hnone | ⟨f, hf, hacc⟩
    · simp [Storage.upload, hnone, hparse]
    · simp [Storage.upload, hf, hacc, hparse]

/-- Witness for C4 at concrete inputs: a rejecting verifier yields the
signature error, and a failing parser (with no verifier) yields the parse
error, in both cases on an unchanged empty state. -/
theorem upload_early_failures_atomic_witness :
    Storage.upload ⟨some (fun _ _ => false), fun _ => .ok [], fun _ => "d", 0⟩
        ⟨[], [], emptyDB⟩ [1] "s" =
      some (.error (.Signature "file signature is invalid"), ⟨[], [], emptyDB⟩) ∧
    Storage.upload ⟨none, fun _ => .error (.Parse "bad"), fun _ => "d", 0⟩
        ⟨[], [], emptyDB⟩ [1] "s" =
      some (.error (.Parse "bad"), ⟨[], [], emptyDB⟩) :=
  ⟨(upload_early_failures_atomic _ _ _ _).1 _ rfl rfl,
   (upload_early_failures_atomic _ _ _ _).2 _ (Or.inl rfl) rfl⟩

/-- Spec-side restatement of the `plugin_variants` filter, following the
spec's words: version matches iff it equals the descriptor version or the
digest prefix of the version's length; the other three parameters match by
exact equality; unset parameters match everything. -/
def specVariantMatches (params : PluginDatabaseFindParams) (p : PluginVariant) : Bool :=
  (match params.version with
   | some ver => (ver = p.descriptor.version) || (ver = p.digest.take ver.length)
   | none => true) &&
  (match params.memflow_plugin_version with
   | some v => v = p.descriptor.plugin_version
   | none => true) &&
  (match params.file_type with
   | some ft => ft = p.descriptor.file_type
   | none => true) &&
  (match params.architecture with
   | some arch => arch = p.descriptor.architecture
   | none => true)

/-- Spec-side restatement of `plugin_variants`: the stored sequence for the
name (empty when absent), minus the first `skip` entries, filtered, then
truncated to `min(limit default 5, 50)` entries in stored order. -/
def specPluginVariants (db : PluginDatabase) (name : String)
    (params : PluginDatabaseFindParams) : List PluginVariant :=
  (((db.getBucket name).drop (params.skip.getD 0)).filter
      (specVariantMatches params)).take ((params.limit.getD 5).min 50)

theorem variantMatches_eq_spec (params : PluginDatabaseFindParams) (p : PluginVariant)
    (hlen : ∀ ver, params.version = some ver → ver.length ≤ p.digest.length) :
    variantMatches params p = some (specVariantMatches params p) := by
  rcases hv : params.version with _ | ver
  · simp [variantMatches, specVariantMatches, hv, variantMatches.variantMatchesRest,
      Bool.and_assoc]
  · have h2 : ver.length ≤ p.digest.length := hlen ver hv
    by_cases h1 : ver = p.descriptor.version
    · simp [variantMatches, specVariantMatches, hv, h1, variantMatches.variantMatchesRest,
        Bool.and_assoc]
    · have h1d : decide (ver = p.descriptor.version) = false := decide_eq_false h1
      by_cases h3 : ver = p.digest.take ver.length
      · have h3d : decide (ver = p.digest.take ver.length) = true := decide_eq_true h3
        simp only [variantMatches, specVariantMatches, hv]
        rw [if_neg h1, if_pos h2, if_pos h3]
        simp [variantMatches.variantMatchesRest, h1d, h3d, Bool.and_assoc]
      · have h3d : decide (ver = p.digest.take ver.length) = false := decide_eq_false h3
        simp only [variantMatches, specVariantMatches, hv]
        rw [if_neg h1, if_pos h2, if_neg h3]
        simp [h1d, h3d]

theorem collectVariants_eq_spec (name : String) (params : PluginDatabaseFindParams) :
    ∀ (l : List PluginVariant) (n : Nat),
      (∀ p ∈ l, p.descriptor.name = name) →
      (∀ p ∈ l, variantMatches params p = some (specVariantMatches params p)) →
      collectVariants name params l n =
        some ((l.filter (specVariantMatches params)).take n) := by
  intro l
  induction l with
  | nil => intro n _ _; cases n <;> simp [collectVariants]
  | cons p rest ih =>
    intro n hname hm
    cases n with
    | zero => simp [collectVariants]
    | succ n =>
      have hp : p.descriptor.name = name := hname p (by simp)
      have hmp := hm p (by simp)
      have ihr := ih n (fun q hq => hname q (by simp [hq]))
        (fun q hq => hm q (by simp [hq]))
      have ihr1 := ih (n + 1) (fun q hq => hname q (by simp [hq]))
        (fun q hq => hm q (by simp [hq]))
      by_cases hs : specVariantMatches params p
      · simp [collectVariants, hp, hmp, hs, ihr, List.filter_cons]
      · simp [collectVariants, hp, hmp, hs, ihr1, List.filter_cons]

/-- C3: `plugin_variants` returns exactly the stored (sorted) sequence for
the name, with `skip` entries dropped, filtered by the provided predicates
(version matching the descriptor version or an equal-length digest prefix,
the rest by equality, unset ones wildcards), truncated to
`min(limit default 5, 50)` entries.  The hypotheses discharge the two
facts the query relies on: bucket entries carry the bucket's name (true of
every database built by `insert_all`), and a provided version does not
exceed any stored digest's length (digests are 64 hex characters; the
out-of-range case is claim C9). -/
theorem plugin_variants_spec (db : PluginDatabase) (name : String)
    (params : PluginDatabaseFindParams)
    (hname : ∀ v ∈ db.getBucket name, v.descriptor.name = name)
    (hlen : ∀ ver, params.version = some ver →
      ∀ v ∈ db.getBucket name, ver.length ≤ v.digest.length) :
    db.pluginVariants name params = some (specPluginVariants db name params) := by
  rcases hb : lookupA name db.plugins with _ | variants
  · simp [PluginDatabase.pluginVariants, hb, specPluginVariants, PluginDatabase.getBucket]
  · have hbucket : db.getBucket name = variants := by
      simp [PluginDatabase.getBucket, hb]
    rw [hbucket] at hname hlen
    simp only [PluginDatabase.pluginVariants, hb, specPluginVariants, hbucket]
    exact collectVariants_eq_spec name params _ _
      (fun p hp => hname p (List.mem_of_mem_drop hp))
      (fun p hp => variantMatches_eq_spec params p
        (fun ver hv => hlen ver hv p (List.mem_of_mem_drop hp)))

/-- Witness for C3 at a concrete database: one bucket with two variants,
a digest-prefix version filter, default pagination. -/
theorem plugin_variants_spec_witness :
    PluginDatabase.pluginVariants
        ⟨[("coredump",
           [⟨"bb", "s", 20, ⟨.pe, .x86_64, 1, "coredump", "0.2.1", "d"⟩⟩,
            ⟨"aa", "s", 10, ⟨.pe, .x86_64, 1, "coredump", "0.2.0", "d"⟩⟩])]⟩
        "coredump" { version := some "bb" } =
      some [⟨"bb", "s", 20, ⟨.pe, .x86_64, 1, "coredump", "0.2.1", "d"⟩⟩] := by
  rw [plugin_variants_spec _ _ _ (by decide) (by decide)]
  decide

theorem collectVariants_isSome (name : String) (params : PluginDatabaseFindParams) :
    ∀ (l : List PluginVariant) (n : Nat),
      (∀ p ∈ l, (variantMatches params p).isSome) →
      (collectVariants name params l n).isSome := by
  intro l
  induction l with
  | nil => intro n _; cases n <;> simp [collectVariants]
  | cons p rest ih =>
    intro n hm
    cases n with
    | zero => simp [collectVariants]
    | succ n =>
      have hmp := hm p (by simp)
      rcases ho : variantMatches params p with _ | b
      · rw [ho] at hmp; simp at hmp
      · by_cases hp : p.descriptor.name = name
        · cases b
          · simpa [collectVariants, hp, ho] using
              ih (n + 1) (fun q hq => hm q (by simp [hq]))
          · simpa [collectVariants, hp, ho, Option.isSome_map] using
              ih n (fun q hq => hm q (by simp [hq]))
        · simpa [collectVariants, hp] using
            ih (n + 1) (fun q hq => hm q (by simp [hq]))

/-- C9: the version filter is partial.  First conjunct: with one stored
variant whose digest is 64 characters, a provided 65-character version that
differs from the descriptor version makes `digest[..version.len()]` index
out of bounds and the query panics (`none`).  Second conjunct: whenever
every provided version is no longer than each stored digest, the query is
total. -/
theorem plugin_variants_version_partial :
    (PluginDatabase.pluginVariants
        ⟨[("coredump",
           [⟨String.mk (List.replicate 64 'a'), "s", 10,
             ⟨.pe, .x86_64, 1, "coredump", "0.2.0", "d"⟩⟩])]⟩
        "coredump" { version := some (String.mk (List.replicate 65 'a')) } = none) ∧
    (∀ (db : PluginDatabase) (name : String) (params : PluginDatabaseFindParams),
      (∀ ver, params.version = some ver →
        ∀ v ∈ db.getBucket name, ver.length ≤ v.digest.length) →
      (db.pluginVariants name params).isSome) := by
  constructor
  · decide
  · intro db name params hlen
    rcases hb : lookupA name db.plugins with _ | variants
    · simp [PluginDatabase.pluginVariants, hb]
    · have hbucket : db.getBucket name = variants := by
        simp [PluginDatabase.getBucket, hb]
      rw [hbucket] at hlen
      simp only [PluginDatabase.pluginVariants, hb]
      exact collectVariants_isSome name params _ _
        (fun p hp => by
          rw [variantMatches_eq_spec params p
            (fun ver hv => hlen ver hv p (List.mem_of_mem_drop hp))]
          simp)

/-- Witness for C9's totality conjunct at a concrete database and query. -/
theorem plugin_variants_version_partial_witness :
    (PluginDatabase.pluginVariants
        ⟨[("coredump", [⟨"aa", "s", 10, ⟨.pe, .x86_64, 1, "coredump", "0.2.0", "d"⟩⟩])]⟩
        "coredump" { version := some "a" }).isSome :=
  plugin_variants_version_partial.2 _ "coredump" _ (by decide)

/-- Number of variants of a bucket carrying a given digest. -/
def bucketCount (l : List PluginVariant) (digest : String) : Nat :=
  (l.filter (fun v => v.digest = digest)).length

/-- Total number of catalog variants carrying a given digest. -/
def digestCount (db : PluginDatabase) (digest : String) : Nat :=
  (db.plugins.map (fun p => bucketCount p.2 digest)).sum

theorem fsLookup_fsWrite_self (k : String) (v : α) :
    ∀ l : List (String × α), fsLookup k (fsWrite k v l) = some v := by
  intro l
  induction l with
  | nil => simp [fsLookup, fsWrite]
  | cons p rest ih =>
    by_cases h : p.1 = k
    · simp [fsLookup, fsWrite, h]
    · simpa [fsLookup, fsWrite, h] using ih

theorem lookupA_setBucketA (n n2 : String) (b : List PluginVariant) :
    ∀ ps, lookupA n2 (setBucketA n b ps) =
      if n2 = n then some b else lookupA n2 ps := by
  intro ps
  induction ps with
  | nil =>
    simp only [setBucketA, lookupA]
    by_cases h : n = n2
    · rw [if_pos h, if_pos h.symm]
    · rw [if_neg h, if_neg (fun hc => h hc.symm)]
  | cons p rest ih =>
    rcases p with ⟨k, v⟩
    by_cases hk : k = n
    · subst hk
      simp only [setBucketA, if_pos rfl, lookupA]
      by_cases h2 : k = n2
      · rw [if_pos h2, if_pos h2.symm]
      · rw [if_neg h2, if_neg h2, if_neg (fun hc => h2 hc.symm)]
    · simp only [setBucketA, if_neg hk, lookupA]
      by_cases h2 : k = n2
      · subst h2
        rw [if_pos rfl, if_pos rfl, if_neg hk]
      · rw [if_neg h2, if_neg h2, ih]

theorem getBucket_setBucket (db : PluginDatabase) (n n2 : String)
    (b : List PluginVariant) :
    (db.setBucket n b).getBucket n2 = if n2 = n then b else db.getBucket n2 := by
  simp only [PluginDatabase.getBucket, PluginDatabase.setBucket, lookupA_setBucketA]
  by_cases h : n2 = n <;> simp [h]

theorem digestCount_setBucket (db : PluginDatabase) (n : String)
    (b : List PluginVariant) (dig : String) :
    digestCount (db.setBucket n b) dig + bucketCount (db.getBucket n) dig =
      digestCount db dig + bucketCount b dig := by
  rcases db with ⟨ps⟩
  simp only [digestCount, PluginDatabase.setBucket, PluginDatabase.getBucket]
  induction ps with
  | nil => simp [setBucketA, lookupA, bucketCount]
  | cons p rest ih =>
    by_cases hk : p.1 = n
    · simp only [setBucketA, lookupA, if_pos hk, List.map_cons, List.sum_cons,
        Option.getD_some]
      omega
    · simp only [setBucketA, lookupA, if_neg hk, List.map_cons, List.sum_cons]
      omega

theorem bucketCount_vecInsert (pos : Nat) (v : PluginVariant)
    (l : List PluginVariant) (dig : String) :
    bucketCount (vecInsert pos v l) dig =
      bucketCount l dig + (if v.digest = dig then 1 else 0) := by
  simp only [bucketCount, vecInsert, List.filter_append, List.length_append,
    List.filter_cons]
  conv_rhs => rw [← List.take_append_drop pos l]
  simp only [List.filter_append, List.length_append]
  by_cases h : v.digest = dig <;> simp [h] <;> omega

theorem digestCount_eq_zero (db : PluginDatabase) (dig : String)
    (h : ∀ p ∈ db.plugins, ∀ v ∈ p.2, v.digest ≠ dig) :
    digestCount db dig = 0 := by
  rcases db with ⟨ps⟩
  simp only [digestCount]
  induction ps with
  | nil => simp
  | cons p rest ih =>
    simp only [List.map_cons, List.sum_cons]
    have h1 : bucketCount p.2 dig = 0 := by
      simp only [bucketCount, List.length_eq_zero]
      rw [List.filter_eq_nil_iff]
      intro v hv
      simpa using h p (by simp) v hv
    rw [h1, ih (fun q hq w hw => h q (by simp [hq]) w hw)]

theorem intCmp_eq_iff (a b : Int) : intCmp a b = .eq ↔ a = b := by
  unfold intCmp
  split_ifs with h1 h2
  · exact ⟨(fun h => nomatch h), fun h => absurd h (by omega)⟩
  · exact ⟨fun _ => h2, fun _ => rfl⟩
  · exact ⟨(fun h => nomatch h), fun h => absurd h h2⟩

theorem intCmp_lt_iff (a b : Int) : intCmp a b = .lt ↔ a < b := by
  unfold intCmp
  split_ifs with h1 h2
  · exact ⟨fun _ => h1, fun _ => rfl⟩
  · exact ⟨(fun h => nomatch h), fun h => absurd h h1⟩
  · exact ⟨(fun h => nomatch h), fun h => absurd h h1⟩

theorem intCmp_gt_iff (a b : Int) : intCmp a b = .gt ↔ b < a := by
  unfold intCmp
  split_ifs with h1 h2
  · exact ⟨(fun h => nomatch h), fun h => absurd h1 (by omega)⟩
  · exact ⟨(fun h => nomatch h), fun h => absurd h (by omega)⟩
  · exact ⟨fun _ => by omega, fun _ => rfl⟩

theorem lexCmp_eq_iff (a b : Int × Int) : lexCmp a b = .eq ↔ a = b := by
  rcases a with ⟨a1, a2⟩
  rcases b with ⟨b1, b2⟩
  unfold lexCmp
  simp only []
  rcases h1 : intCmp a1 b1 with _ | _ | _
  · simp only [h1]
    constructor
    · intro h; cases h
    · intro h
      rw [Prod.mk.injEq] at h
      rw [h.1, (intCmp_eq_iff b1 b1).mpr rfl] at h1
      cases h1
  · simp only [h1]
    constructor
    · intro h
      rw [Prod.mk.injEq]
      exact ⟨(intCmp_eq_iff a1 b1).mp h1, (intCmp_eq_iff a2 b2).mp h⟩
    · intro h
      rw [Prod.mk.injEq] at h
      rw [h.2]
      exact (intCmp_eq_iff b2 b2).mpr rfl
  · simp only [h1]
    constructor
    · intro h; cases h
    · intro h
      rw [Prod.mk.injEq] at h
      rw [h.1, (intCmp_eq_iff b1 b1).mpr rfl] at h1
      cases h1

theorem binarySearchGo_no_hit (f : α → Ordering) (xs : List α)
    (h : ∀ x ∈ xs, f x ≠ .eq) :
    ∀ (n left right : Nat), right - left ≤ n →
      ∃ pos, binarySearchGo f xs left right = Sum.inr pos := by
  intro n
  induction n with
  | zero =>
    intro left right hle
    rw [binarySearchGo]
    rw [dif_neg (by omega)]
    exact ⟨left, rfl⟩
  | succ n ih =>
    intro left right hle
    rw [binarySearchGo]
    by_cases hlr : left < right
    · rw [dif_pos hlr]
      rcases hg : xs.get? (left + (right - left) / 2) with _ | x
      · exact ⟨left, rfl⟩
      · have hx : x ∈ xs := List.get?_mem hg
        have hdiv : (right - left) / 2 < right - left :=
          Nat.div_lt_self (by omega) (by omega)
        rcases hfx : f x with _ | _ | _
        · simp only [hfx]
          exact ih (left + (right - left) / 2 + 1) right (by omega)
        · exact absurd hfx (h x hx)
        · simp only [hfx]
          exact ih left (left + (right - left) / 2) (by omega)
    · rw [dif_neg hlr]
      exact ⟨left, rfl⟩

theorem binarySearchBy_no_hit (f : α → Ordering) (xs : List α)
    (h : ∀ x ∈ xs, f x ≠ .eq) :
    ∃ pos, binarySearchBy f xs = Sum.inr pos :=
  binarySearchGo_no_hit f xs h xs.length 0 xs.length (by omega)

theorem insertAllGo_fresh (m : PluginMetadata) (hne : m.descriptors ≠ []) :
    ∀ (ds : List PluginDescriptorInfo) (db : PluginDatabase),
      (ds.map (fun d => d.name)).Nodup →
      (∀ d ∈ ds, ∀ v ∈ db.getBucket d.name, v.created_at ≠ m.created_at) →
      ∃ db1, insertAllGo m db ds = some db1 ∧
        digestCount db1 m.digest = digestCount db m.digest + ds.length := by
  intro ds
  induction ds with
  | nil => intro db _ _; exact ⟨db, rfl, by simp [insertAllGo]⟩
  | cons d rest ih =>
    intro db hnodup hfresh
    rcases hh : m.descriptors.head? with _ | first
    · exact absurd (List.head?_eq_none_iff.mp hh) hne
    · have hne2 : ∀ v ∈ db.getBucket d.name,
          lexCmp (first.plugin_version, m.created_at) (keyOf v) ≠ .eq := by
        intro v hv hc
        have := (lexCmp_eq_iff _ _).mp hc
        have h2 : m.created_at = v.created_at := congrArg Prod.snd this
        exact hfresh d (by simp) v hv h2.symm
      obtain ⟨pos, hpos⟩ := binarySearchBy_no_hit _ _ hne2
      have hnods : (rest.map (fun x => x.name)).Nodup := (List.nodup_cons.mp hnodup).2
      have hdne : d.name ∉ rest.map (fun x => x.name) := (List.nodup_cons.mp hnodup).1
      set v0 : PluginVariant := ⟨m.digest, m.signature, m.created_at, d⟩ with hv0
      set db2 := db.setBucket d.name
        (vecInsert pos v0 (db.getBucket d.name)) with hdb2
      have hfresh2 : ∀ d2 ∈ rest, ∀ v ∈ db2.getBucket d2.name,
          v.created_at ≠ m.created_at := by
        intro d2 hd2 v hv
        have hneq : d2.name ≠ d.name := by
          intro hc
          exact hdne (by rw [← hc]; exact List.mem_map_of_mem _ hd2)
        rw [hdb2, getBucket_setBucket, if_neg hneq] at hv
        exact hfresh d2 (by simp [hd2]) v hv
      obtain ⟨db1, hrun, hcount⟩ := ih db2 hnods hfresh2
      refine ⟨db1, ?_, ?_⟩
      · simp only [insertAllGo, hh, hpos]
        exact hrun
      · have hstep := digestCount_setBucket db d.name
          (vecInsert pos v0 (db.getBucket d.name)) m.digest
        have hvc := bucketCount_vecInsert pos v0 (db.getBucket d.name) m.digest
        rw [hvc, if_pos rfl] at hstep
        rw [← hdb2] at hstep
        rw [hcount]
        simp only [List.length_cons]
        omega

/-- C5: when `{digest}.plugin` already exists on disk, `upload` returns
`AlreadyExists` and modifies nothing; consequently uploading the same bytes
twice (passing verification, on a state where the digest is fresh) first
succeeds (`Added` at the route layer) and then returns `AlreadyExists`
leaving the state unchanged, and the catalog holds exactly the one set of
variants for the digest - one per parsed descriptor. -/
theorem upload_twice_added_then_already_exists
    (cfg : UploadCfg) (st : StorageState) (bytes : List Nat) (sig : String)
    (ds : List PluginDescriptorInfo)
    (hver : cfg.verifier = none ∨ ∃ f, cfg.verifier = some f ∧ f bytes sig = true)
    (hparse : cfg.parse_descriptors bytes = .ok ds)
    (hne : ds ≠ [])
    (hnames : (ds.map (fun d => d.name)).Nodup)
    (hfile : fsLookup (cfg.sha256 bytes) st.plugins = none)
    (hfresh : ∀ d ∈ ds, ∀ v ∈ st.db.getBucket d.name, v.created_at ≠ cfg.now)
    (hdigest : ∀ p ∈ st.db.plugins, ∀ v ∈ p.2, v.digest ≠ cfg.sha256 bytes) :
    ∃ st1, Storage.upload cfg st bytes sig = some (.ok (), st1) ∧
      Storage.upload cfg st1 bytes sig =
        some (.error (.AlreadyExists "plugin with the same digest was already added"), st1) ∧
      digestCount st1.db (cfg.sha256 bytes) = ds.length := by
  have hvcond : (match cfg.verifier with
      | some isValid => !isValid bytes sig
      | none => false) = false := by
    rcases hver with hnone | ⟨f, hf, hacc⟩
    · rw [hnone]
    · simp [hf, hacc]
  obtain ⟨db1, hrun, hcount⟩ :=
    insertAllGo_fresh ⟨cfg.sha256 bytes, sig, cfg.now, ds⟩ hne ds st.db hnames hfresh
  refine ⟨⟨fsWrite (cfg.sha256 bytes) bytes st.plugins,
    fsWrite (cfg.sha256 bytes) ⟨cfg.sha256 bytes, sig, cfg.now, ds⟩ st.metas, db1⟩,
    ?_, ?_, ?_⟩
  · simp only [Storage.upload, hvcond, Bool.false_eq_true, if_false, hparse, hfile,
      Option.isSome_none, PluginDatabase.insertAll, hrun]
  · simp only [Storage.upload, hvcond, Bool.false_eq_true, if_false, hparse,
      fsLookup_fsWrite_self, Option.isSome_some, if_true]
  · have hz := digestCount_eq_zero st.db (cfg.sha256 bytes) hdigest
    rw [hcount]
    rw [hz]
    omega

/-- Witness for C5 at a concrete configuration and empty initial state. -/
theorem upload_twice_added_then_already_exists_witness :
    ∃ st1,
      Storage.upload ⟨none, fun _ => .ok [⟨.pe, .x86_64, 1, "coredump", "0.2.0", "d"⟩],
          fun _ => "dig", 7⟩ ⟨[], [], emptyDB⟩ [1, 2] "s" = some (.ok (), st1) ∧
      Storage.upload ⟨none, fun _ => .ok [⟨.pe, .x86_64, 1, "coredump", "0.2.0", "d"⟩],
          fun _ => "dig", 7⟩ st1 [1, 2] "s" =
        some (.error (.AlreadyExists "plugin with the same digest was already added"), st1) ∧
      digestCount st1.db "dig" = 1 :=
  upload_twice_added_then_already_exists
    ⟨none, fun _ => .ok [⟨.pe, .x86_64, 1, "coredump", "0.2.0", "d"⟩], fun _ => "dig", 7⟩
    ⟨[], [], emptyDB⟩ [1, 2] "s" [⟨.pe, .x86_64, 1, "coredump", "0.2.0", "d"⟩]
    (Or.inl rfl) rfl (by decide) (by decide) (by decide) (by decide) (by decide)

/-!  ## Catalog sortedness invariant (claim C2)  -/

/-- An operation on the catalog, as exercised by upload (`insert_all`) and
delete (`delete_by_digest`). -/
inductive CatalogOp where
  | insertAll (m : PluginMetadata)
  | deleteByDigest (digest : String)
deriving DecidableEq

/-- Run a sequence of catalog operations (`none` = a panic inside
`insert_all`). -/
def runOps : PluginDatabase → List CatalogOp → Option PluginDatabase
  | db, [] => some db
  | db, .insertAll m :: rest =>
    match db.insertAll m with
    | none => none
    | some db2 => runOps db2 rest
  | db, .deleteByDigest dig :: rest => runOps (db.deleteByDigest dig) rest

/-- The `(name bucket, sort key)` pairs inserted by an operation. -/
def opInserts : CatalogOp → List (String × (Int × Int))
  | .insertAll m =>
      m.descriptors.map (fun d => (d.name, (d.plugin_version, m.created_at)))
  | .deleteByDigest _ => []

/-- A bucket is strictly sorted by `(pluginVersion DESC, createdAt DESC)`:
each later entry's key is lexicographically strictly below each earlier
entry's key. -/
def SortedDesc (l : List PluginVariant) : Prop :=
  l.Pairwise (fun a b => lexCmp (keyOf b) (keyOf a) = Ordering.lt)

theorem lexCmp_lt_iff (a b : Int × Int) :
    lexCmp a b = .lt ↔ (a.1 < b.1 ∨ (a.1 = b.1 ∧ a.2 < b.2)) := by
  rcases a with ⟨a1, a2⟩
  rcases b with ⟨b1, b2⟩
  show (match intCmp a1 b1 with | .eq => intCmp a2 b2 | o => o) = .lt ↔
    (a1 < b1 ∨ (a1 = b1 ∧ a2 < b2))
  rcases h1 : intCmp a1 b1 with _ | _ | _
  · rw [intCmp_lt_iff] at h1
    constructor
    · intro _
      exact Or.inl h1
    · intro _
      rfl
  · rw [intCmp_eq_iff] at h1
    constructor
    · intro h
      exact Or.inr ⟨h1, (intCmp_lt_iff a2 b2).mp h⟩
    · intro h
      rcases h with h | h
      · exact absurd h (by omega)
      · exact (intCmp_lt_iff a2 b2).mpr h.2
  · rw [intCmp_gt_iff] at h1
    constructor
    · intro h
      exact (nomatch h)
    · intro h
      exfalso
      rcases h with h | h
      · omega
      · omega

theorem lexCmp_gt_iff_swap (a b : Int × Int) :
    lexCmp a b = .gt ↔ lexCmp b a = .lt := by
  rw [lexCmp_lt_iff]
  rcases a with ⟨a1, a2⟩
  rcases b with ⟨b1, b2⟩
  show (match intCmp a1 b1 with | .eq => intCmp a2 b2 | o => o) = .gt ↔
    (b1 < a1 ∨ (b1 = a1 ∧ b2 < a2))
  rcases h1 : intCmp a1 b1 with _ | _ | _
  · rw [intCmp_lt_iff] at h1
    constructor
    · intro h
      exact (nomatch h)
    · intro h
      exfalso
      rcases h with h | h
      · omega
      · omega
  · rw [intCmp_eq_iff] at h1
    constructor
    · intro h
      exact Or.inr ⟨h1.symm, (intCmp_gt_iff a2 b2).mp h⟩
    · intro h
      rcases h with h | h
      · exact absurd h (by omega)
      · exact (intCmp_gt_iff a2 b2).mpr h.2
  · rw [intCmp_gt_iff] at h1
    constructor
    · intro _
      exact Or.inl h1
    · intro _
      rfl

theorem lexCmp_lt_trans {a b c : Int × Int}
    (h1 : lexCmp a b = .lt) (h2 : lexCmp b c = .lt) : lexCmp a c = .lt := by
  rw [lexCmp_lt_iff] at *
  omega

/-- Insertion-point characterization of the bisection loop: on a range with
monotone classification (all `lt` left of all `eq` left of all `gt`), an
`Err(pos)` result splits the list at `pos`: strictly `lt` before, strictly
`gt` from `pos` on. -/
theorem binarySearchGo_inr_spec (f : α → Ordering) (xs : List α)
    (hmono_lt : ∀ i j x y, i ≤ j → xs.get? i = some x → xs.get? j = some y →
      f y = .lt → f x = .lt)
    (hmono_gt : ∀ i j x y, i ≤ j → xs.get? i = some x → xs.get? j = some y →
      f x = .gt → f y = .gt) :
    ∀ (n left right : Nat), right - left ≤ n → left ≤ right → right ≤ xs.length →
      (∀ i x, i < left → xs.get? i = some x → f x = .lt) →
      (∀ i x, right ≤ i → xs.get? i = some x → f x = .gt) →
      ∀ pos, binarySearchGo f xs left right = Sum.inr pos →
        (∀ i x, i < pos → xs.get? i = some x → f x = .lt) ∧
        (∀ i x, pos ≤ i → xs.get? i = some x → f x = .gt) := by
  intro n
  induction n with
  | zero =>
    intro left right hle hlr hlen hpre hpost pos hrun
    rw [binarySearchGo, dif_neg (by omega)] at hrun
    have hp : pos = left := (Sum.inr.inj hrun).symm
    subst hp
    exact ⟨hpre, fun i x hi hx => hpost i x (by omega) hx⟩
  | succ n ih =>
    intro left right hle hlr hlen hpre hpost pos hrun
    rw [binarySearchGo] at hrun
    by_cases hc : left < right
    · rw [dif_pos hc] at hrun
      have hdiv : (right - left) / 2 < right - left :=
        Nat.div_lt_self (by omega) (by omega)
      have hmidlt : left + (right - left) / 2 < right := by omega
      rcases hg : xs.get? (left + (right - left) / 2) with _ | x
      · rw [List.get?_eq_none] at hg
        omega
      · simp only [hg] at hrun
        rcases hfx : f x with _ | _ | _ <;> rw [hfx] at hrun
        · exact ih (left + (right - left) / 2 + 1) right (by omega) (by omega) hlen
            (fun i y hi hy => by
              rcases Nat.lt_or_ge i left with hil | hil
              · exact hpre i y hil hy
              · exact hmono_lt i (left + (right - left) / 2) y x (by omega) hy hg hfx)
            hpost pos hrun
        · exact (nomatch hrun)
        · exact ih left (left + (right - left) / 2) (by omega) (by omega) (by omega)
            hpre
            (fun i y hi hy =>
              hmono_gt (left + (right - left) / 2) i x y (by omega) hg hy hfx)
            pos hrun
    · rw [dif_neg hc] at hrun
      have hp : pos = left := (Sum.inr.inj hrun).symm
      subst hp
      exact ⟨hpre, fun i x hi hx => hpost i x (by omega) hx⟩

theorem binarySearchBy_inr_spec (f : α → Ordering) (xs : List α)
    (hmono_lt : ∀ i j x y, i ≤ j → xs.get? i = some x → xs.get? j = some y →
      f y = .lt → f x = .lt)
    (hmono_gt : ∀ i j x y, i ≤ j → xs.get? i = some x → xs.get? j = some y →
      f x = .gt → f y = .gt) :
    ∀ pos, binarySearchBy f xs = Sum.inr pos →
      (∀ i x, i < pos → xs.get? i = some x → f x = .lt) ∧
      (∀ i x, pos ≤ i → xs.get? i = some x → f x = .gt) := by
  intro pos hrun
  exact binarySearchGo_inr_spec f xs hmono_lt hmono_gt xs.length 0 xs.length
    (by omega) (by omega) (by omega)
    (fun i x hi _ => by omega)
    (fun i x hi hx => by
      rw [(List.get?_eq_none).mpr hi] at hx
      cases hx)
    pos hrun

theorem mem_vecInsert {a v : α} {pos : Nat} {l : List α} :
    a ∈ vecInsert pos v l → a = v ∨ a ∈ l := by
  intro h
  rcases List.mem_append.mp h with h | h
  · exact Or.inr (List.mem_of_mem_take h)
  · rcases List.mem_cons.mp h with h | h
    · exact Or.inl h
    · exact Or.inr (List.mem_of_mem_drop h)

theorem sortedDesc_vecInsert (l : List PluginVariant) (v : PluginVariant) (pos : Nat)
    (hs : SortedDesc l)
    (hlt : ∀ i x, i < pos → l.get? i = some x → lexCmp (keyOf v) (keyOf x) = .lt)
    (hgt : ∀ i x, pos ≤ i → l.get? i = some x → lexCmp (keyOf x) (keyOf v) = .lt) :
    SortedDesc (vecInsert pos v l) := by
  have hsplit : List.Pairwise
      (fun a b => lexCmp (keyOf b) (keyOf a) = Ordering.lt)
      (l.take pos ++ l.drop pos) := by
    rw [List.take_append_drop]
    exact hs
  rw [List.pairwise_append] at hsplit
  unfold SortedDesc vecInsert
  rw [List.pairwise_append]
  refine ⟨hsplit.1, ?_, ?_⟩
  · rw [List.pairwise_cons]
    refine ⟨?_, hsplit.2.1⟩
    intro b hb
    obtain ⟨i, hi⟩ := List.mem_iff_get?.mp hb
    rw [List.get?_drop] at hi
    exact hgt (pos + i) b (by omega) hi
  · intro a ha b hb
    rcases List.mem_cons.mp hb with rfl | hb2
    · obtain ⟨i, hi⟩ := List.mem_iff_get?.mp ha
      have hilt : i < pos := by
        by_contra hcon
        have hnone : (l.take pos).get? i = none := by
          rw [List.get?_eq_none, List.length_take]
          omega
        rw [hnone] at hi
        cases hi
      rw [List.get?_take hilt] at hi
      exact hlt i a hilt hi
    · exact hsplit.2.2 a ha b hb2

theorem sortedDesc_mono_lt (l : List PluginVariant) (hs : SortedDesc l)
    (target : Int × Int) :
    ∀ i j x y, i ≤ j → l.get? i = some x → l.get? j = some y →
      lexCmp target (keyOf y) = .lt → lexCmp target (keyOf x) = .lt := by
  intro i j x y hij hx hy hlt
  rcases Nat.eq_or_lt_of_le hij with rfl | hij2
  · rw [hx] at hy
    cases hy
    exact hlt
  · obtain ⟨hxlen, hxget⟩ := List.get?_eq_some.mp hx
    obtain ⟨hylen, hyget⟩ := List.get?_eq_some.mp hy
    have hR := (List.pairwise_iff_get.mp hs) ⟨i, hxlen⟩ ⟨j, hylen⟩ hij2
    rw [hxget, hyget] at hR
    exact lexCmp_lt_trans hlt hR

theorem sortedDesc_mono_gt (l : List PluginVariant) (hs : SortedDesc l)
    (target : Int × Int) :
    ∀ i j x y, i ≤ j → l.get? i = some x → l.get? j = some y →
      lexCmp target (keyOf x) = .gt → lexCmp target (keyOf y) = .gt := by
  intro i j x y hij hx hy hgt
  rcases Nat.eq_or_lt_of_le hij with rfl | hij2
  · rw [hx] at hy
    cases hy
    exact hgt
  · obtain ⟨hxlen, hxget⟩ := List.get?_eq_some.mp hx
    obtain ⟨hylen, hyget⟩ := List.get?_eq_some.mp hy
    have hR := (List.pairwise_iff_get.mp hs) ⟨i, hxlen⟩ ⟨j, hylen⟩ hij2
    rw [hxget, hyget] at hR
    rw [lexCmp_gt_iff_swap] at hgt ⊢
    exact lexCmp_lt_trans hR hgt

theorem getBucket_deleteByDigest (db : PluginDatabase) (dig : String) (name : String) :
    (db.deleteByDigest dig).getBucket name =
      (db.getBucket name).filter (fun v => v.digest ≠ dig) := by
  rcases db with ⟨ps⟩
  simp only [PluginDatabase.deleteByDigest, PluginDatabase.getBucket]
  induction ps with
  | nil => simp [lookupA]
  | cons p rest ih =>
    by_cases hk : p.1 = name
    · simp only [List.map_cons, lookupA, if_pos hk, Option.getD_some]
    · simp only [List.map_cons, lookupA, if_neg hk]
      exact ih

/-- Two insertions are compatible: same name bucket implies distinct keys. -/
def DupFree (a b : String × (Int × Int)) : Prop :=
  a.1 = b.1 → a.2 ≠ b.2

instance : DecidableRel DupFree := fun a b => by
  unfold DupFree
  infer_instance

theorem insertAllGo_inv (m : PluginMetadata) (first : PluginDescriptorInfo)
    (hh : m.descriptors.head? = some first) :
    ∀ (ds : List PluginDescriptorInfo) (db : PluginDatabase)
      (done : List (String × (Int × Int))),
      (∀ d ∈ ds, d.plugin_version = first.plugin_version) →
      (∀ name, SortedDesc (db.getBucket name)) →
      (∀ name v, v ∈ db.getBucket name → (name, keyOf v) ∈ done) →
      (done ++ ds.map (fun d => (d.name, (d.plugin_version, m.created_at)))).Pairwise DupFree →
      ∃ db1, insertAllGo m db ds = some db1 ∧
        (∀ name, SortedDesc (db1.getBucket name)) ∧
        (∀ name v, v ∈ db1.getBucket name → (name, keyOf v) ∈
          done ++ ds.map (fun d => (d.name, (d.plugin_version, m.created_at)))) := by
  intro ds
  induction ds with
  | nil =>
    intro db done _ hsort hmem _
    exact ⟨db, rfl, hsort, fun name v hv => by simpa using hmem name v hv⟩
  | cons d rest ih =>
    intro db done hshare hsort hmem hdup
    have hfirstkey : (first.plugin_version, m.created_at) =
        (d.plugin_version, m.created_at) := by
      rw [hshare d (by simp)]
    have hnohit : ∀ v ∈ db.getBucket d.name,
        lexCmp (first.plugin_version, m.created_at) (keyOf v) ≠ .eq := by
      intro v hv hc
      rw [hfirstkey] at hc
      have hkey : (d.plugin_version, m.created_at) = keyOf v := (lexCmp_eq_iff _ _).mp hc
      have hmm := hmem d.name v hv
      have hcross := (List.pairwise_append.mp hdup).2.2 (d.name, keyOf v) hmm
        (d.name, (d.plugin_version, m.created_at)) (by simp)
      exact hcross rfl (by rw [hkey])
    obtain ⟨pos, hpos⟩ := binarySearchBy_no_hit
      (fun e => lexCmp (first.plugin_version, m.created_at) (keyOf e)) _ hnohit
    obtain ⟨hltf, hgtf⟩ := binarySearchBy_inr_spec
      (fun e => lexCmp (first.plugin_version, m.created_at) (keyOf e))
      (db.getBucket d.name)
      (sortedDesc_mono_lt _ (hsort d.name) _)
      (sortedDesc_mono_gt _ (hsort d.name) _) pos hpos
    have hbsorted : SortedDesc
        (vecInsert pos ⟨m.digest, m.signature, m.created_at, d⟩ (db.getBucket d.name)) := by
      apply sortedDesc_vecInsert _ _ _ (hsort d.name)
      · intro i x hi hx
        have hfx := hltf i x hi hx
        rw [hfirstkey] at hfx
        exact hfx
      · intro i x hi hx
        have hfx := hgtf i x hi hx
        rw [hfirstkey, lexCmp_gt_iff_swap] at hfx
        exact hfx
    have hsort2 : ∀ name,
        SortedDesc ((db.setBucket d.name
          (vecInsert pos ⟨m.digest, m.signature, m.created_at, d⟩
            (db.getBucket d.name))).getBucket name) := by
      intro name
      rw [getBucket_setBucket]
      by_cases hn : name = d.name
      · rw [if_pos hn]
        exact hbsorted
      · rw [if_neg hn]
        exact hsort name
    have hmem2 : ∀ name v,
        v ∈ (db.setBucket d.name
          (vecInsert pos ⟨m.digest, m.signature, m.created_at, d⟩
            (db.getBucket d.name))).getBucket name →
        (name, keyOf v) ∈ done ++ [(d.name, (d.plugin_version, m.created_at))] := by
      intro name v hv
      rw [getBucket_setBucket] at hv
      by_cases hn : name = d.name
      · subst hn
        rw [if_pos rfl] at hv
        rcases mem_vecInsert hv with rfl | hv2
        · exact List.mem_append_right _ (by simp [keyOf])
        · exact List.mem_append_left _ (hmem d.name v hv2)
      · rw [if_neg hn] at hv
        exact List.mem_append_left _ (hmem name v hv)
    have hdup2 : ((done ++ [(d.name, (d.plugin_version, m.created_at))]) ++
        rest.map (fun x => (x.name, (x.plugin_version, m.created_at)))).Pairwise DupFree := by
      rw [List.append_assoc]
      exact hdup
    obtain ⟨db1, hrun, hsort1, hmem1⟩ := ih
      (db.setBucket d.name
        (vecInsert pos ⟨m.digest, m.signature, m.created_at, d⟩ (db.getBucket d.name)))
      (done ++ [(d.name, (d.plugin_version, m.created_at))])
      (fun d2 hd2 => hshare d2 (by simp [hd2])) hsort2 hmem2 hdup2
    refine ⟨db1, ?_, hsort1, ?_⟩
    · simp only [insertAllGo, hh, hpos]
      exact hrun
    · intro name v hv
      have hres := hmem1 name v hv
      rw [List.append_assoc] at hres
      exact hres

theorem runOps_inv :
    ∀ (ops : List CatalogOp) (db : PluginDatabase)
      (done : List (String × (Int × Int))),
      (∀ m, CatalogOp.insertAll m ∈ ops → m.descriptors ≠ [] ∧
        ∀ d1 ∈ m.descriptors, ∀ d2 ∈ m.descriptors,
          d1.plugin_version = d2.plugin_version) →
      (∀ name, SortedDesc (db.getBucket name)) →
      (∀ name v, v ∈ db.getBucket name → (name, keyOf v) ∈ done) →
      (done ++ (ops.map opInserts).flatten).Pairwise DupFree →
      ∃ db1, runOps db ops = some db1 ∧
        ∀ name, SortedDesc (db1.getBucket name) := by
  intro ops
  induction ops with
  | nil =>
    intro db done _ hsort _ _
    exact ⟨db, rfl, hsort⟩
  | cons op rest ih =>
    intro db done hwf hsort hmem hdup
    rcases op with m | dig
    · obtain ⟨hne, hshare⟩ := hwf m (by simp)
      rcases hd : m.descriptors with _ | ⟨first, rest0⟩
      · exact absurd hd hne
      · have hh : m.descriptors.head? = some first := by
          rw [hd]
          rfl
        have hfirstmem : first ∈ m.descriptors := by
          rw [hd]
          simp
        have hshare2 : ∀ d ∈ m.descriptors, d.plugin_version = first.plugin_version :=
          fun d hdm => hshare d hdm first hfirstmem
        have hsub : (done ++ m.descriptors.map
            (fun d => (d.name, (d.plugin_version, m.created_at)))).Sublist
            (done ++ (opInserts (.insertAll m) ++ (rest.map opInserts).flatten)) := by
          rw [← List.append_assoc]
          exact List.sublist_append_left _ _
        have hdup1 := List.Pairwise.sublist hsub hdup
        obtain ⟨db2, hrun2, hsort2, hmem2⟩ := insertAllGo_inv m first hh
          m.descriptors db done hshare2 hsort hmem hdup1
        have hdup2 : ((done ++ m.descriptors.map
            (fun d => (d.name, (d.plugin_version, m.created_at)))) ++
            (rest.map opInserts).flatten).Pairwise DupFree := by
          rw [List.append_assoc]
          exact hdup
        obtain ⟨db1, hrun1, hsort1⟩ := ih db2
          (done ++ m.descriptors.map (fun d => (d.name, (d.plugin_version, m.created_at))))
          (fun m2 hm2 => hwf m2 (by simp [hm2])) hsort2 hmem2 hdup2
        refine ⟨db1, ?_, hsort1⟩
        simp only [runOps, PluginDatabase.insertAll, hrun2]
        exact hrun1
    · have hsortd : ∀ name, SortedDesc ((db.deleteByDigest dig).getBucket name) := by
        intro name
        rw [getBucket_deleteByDigest]
        exact List.Pairwise.sublist (List.filter_sublist _) (hsort name)
      have hmemd : ∀ name v, v ∈ (db.deleteByDigest dig).getBucket name →
          (name, keyOf v) ∈ done := by
        intro name v hv
        rw [getBucket_deleteByDigest] at hv
        exact hmem name v (List.mem_of_mem_filter hv)
      obtain ⟨db1, hrun1, hsort1⟩ := ih (db.deleteByDigest dig) done
        (fun m2 hm2 => hwf m2 (by simp [hm2])) hsortd hmemd hdup
      exact ⟨db1, hrun1, hsort1⟩

/-- C2: catalog sortedness is an invariant.  Assuming every inserted
metadata has a non-empty descriptor list all sharing one `pluginVersion`,
and no two insertions into the same name bucket carry an identical
`(pluginVersion, createdAt)` key, any sequence of `insert_all` and
`delete_by_digest` calls runs without hitting the `unreachable!` arm and
leaves every name's stored variant sequence strictly sorted by
`(pluginVersion DESC, createdAt DESC)`. -/
theorem catalog_sorted_invariant (ops : List CatalogOp)
    (hwf : ∀ m, CatalogOp.insertAll m ∈ ops → m.descriptors ≠ [] ∧
      ∀ d1 ∈ m.descriptors, ∀ d2 ∈ m.descriptors,
        d1.plugin_version = d2.plugin_version)
    (hdup : ((ops.map opInserts).flatten).Pairwise DupFree) :
    ∃ db, runOps emptyDB ops = some db ∧
      ∀ name, SortedDesc (db.getBucket name) := by
  apply runOps_inv ops emptyDB [] hwf
  · intro name
    exact List.Pairwise.nil
  · intro name v hv
    simp [emptyDB, PluginDatabase.getBucket, lookupA] at hv
  · simpa using hdup

/-- Witness for C2: two uploads of one-descriptor files (distinct
timestamps) followed by a delete. -/
theorem catalog_sorted_invariant_witness :
    ∃ db, runOps emptyDB
        [CatalogOp.insertAll ⟨"aa", "s", 10, [⟨.pe, .x86_64, 1, "coredump", "0.2.0", "d"⟩]⟩,
         CatalogOp.insertAll ⟨"bb", "s", 20, [⟨.pe, .x86_64, 1, "coredump", "0.2.1", "d"⟩]⟩,
         CatalogOp.deleteByDigest "aa"] = some db ∧
      ∀ name, SortedDesc (db.getBucket name) := by
  apply catalog_sorted_invariant
  · intro m hm
    simp only [List.mem_cons, List.not_mem_nil, or_false] at hm
    rcases hm with h | h | h
    · cases h
      exact ⟨by decide, by decide⟩
    · cases h
      exact ⟨by decide, by decide⟩
    · cases h
  · decide

/-!  ## Plugin URI round-trip (claim C8)  -/

theorem splitCh_ne_nil (c : Char) : ∀ s, splitCh c s ≠ [] := by
  intro s
  induction s with
  | nil => simp [splitCh]
  | cons x xs ih =>
    simp only [splitCh]
    by_cases h : x = c
    · simp [h]
    · rw [if_neg h]
      rcases hs : splitCh c xs with _ | ⟨y, ys⟩
      · simp
      · simp

theorem joinCh_splitCh (c : Char) : ∀ s, joinCh c (splitCh c s) = s := by
  intro s
  induction s with
  | nil => rfl
  | cons x xs ih =>
    simp only [splitCh]
    by_cases h : x = c
    · rw [if_pos h]
      rcases hs : splitCh c xs with _ | ⟨y, ys⟩
      · exact absurd hs (splitCh_ne_nil c xs)
      · rw [hs] at ih
        subst h
        simp only [joinCh, List.nil_append]
        rw [ih]
    · rw [if_neg h]
      rcases hs : splitCh c xs with _ | ⟨y, ys⟩
      · exact absurd hs (splitCh_ne_nil c xs)
      · rw [hs] at ih
        rcases ys with _ | ⟨z, zs⟩
        · simp only [joinCh] at ih ⊢
          rw [ih]
        · simp only [joinCh] at ih ⊢
          rw [List.cons_append, ih]

theorem splitCh_cons_eq (c x : Char) (xs : List Char) (h : x = c) :
    splitCh c (x :: xs) = [] :: splitCh c xs := by
  simp [splitCh, h]

theorem splitCh_cons_ne (c x : Char) (xs : List Char) (h : ¬ x = c)
    {y : List Char} {ys : List (List Char)} (hs : splitCh c xs = y :: ys) :
    splitCh c (x :: xs) = (x :: y) :: ys := by
  simp only [splitCh, if_neg h, hs]

theorem splitCh_append_cons (c : Char) (b : List Char) :
    ∀ a, splitCh c (a ++ c :: b) = splitCh c a ++ splitCh c b := by
  intro a
  induction a with
  | nil =>
    rw [List.nil_append, splitCh_cons_eq c c b rfl]
    rfl
  | cons x a2 ih =>
    rw [List.cons_append]
    by_cases h : x = c
    · rw [splitCh_cons_eq c x _ h, splitCh_cons_eq c x a2 h, ih]
      rfl
    · rcases hs : splitCh c a2 with _ | ⟨y, ys⟩
      · exact absurd hs (splitCh_ne_nil c a2)
      · have hs2 : splitCh c (a2 ++ c :: b) = y :: (ys ++ splitCh c b) := by
          rw [ih, hs]
          rfl
        rw [splitCh_cons_ne c x _ h hs2, splitCh_cons_ne c x a2 h hs]
        rfl

theorem splitCh_of_not_mem (c : Char) : ∀ s, c ∉ s → splitCh c s = [s] := by
  intro s
  induction s with
  | nil => intro _; rfl
  | cons x xs ih =>
    intro h
    have hx : ¬ x = c := fun hc => h (by simp [hc])
    have hxs : c ∉ xs := fun hc => h (by simp [hc])
    simp only [splitCh, if_neg hx, ih hxs]

theorem not_mem_of_mem_splitCh (c : Char) :
    ∀ s part, part ∈ splitCh c s → c ∉ part := by
  intro s
  induction s with
  | nil =>
    intro part h
    simp only [splitCh, List.mem_singleton] at h
    subst h
    simp
  | cons x xs ih =>
    intro part h
    simp only [splitCh] at h
    by_cases hx : x = c
    · rw [if_pos hx] at h
      rcases List.mem_cons.mp h with rfl | h2
      · simp
      · exact ih part h2
    · rw [if_neg hx] at h
      rcases hs : splitCh c xs with _ | ⟨y, ys⟩
      · exact absurd hs (splitCh_ne_nil c xs)
      · rw [hs] at h
        rcases List.mem_cons.mp h with rfl | h2
        · intro hc
          rcases List.mem_cons.mp hc with rfl | hc2
          · exact hx rfl
          · exact ih y (by rw [hs]; simp) hc2
        · exact ih part (by rw [hs]; simp [h2])

theorem mem_of_mem_splitCh (c : Char) :
    ∀ s part ch, part ∈ splitCh c s → ch ∈ part → ch ∈ s := by
  intro s
  induction s with
  | nil =>
    intro part ch h hch
    simp only [splitCh, List.mem_singleton] at h
    subst h
    simp at hch
  | cons x xs ih =>
    intro part ch h hch
    simp only [splitCh] at h
    by_cases hx : x = c
    · rw [if_pos hx] at h
      rcases List.mem_cons.mp h with rfl | h2
      · simp at hch
      · exact List.mem_cons_of_mem x (ih part ch h2 hch)
    · rw [if_neg hx] at h
      rcases hs : splitCh c xs with _ | ⟨y, ys⟩
      · exact absurd hs (splitCh_ne_nil c xs)
      · rw [hs] at h
        rcases List.mem_cons.mp h with rfl | h2
        · rcases List.mem_cons.mp hch with rfl | hch2
          · simp
          · exact List.mem_cons_of_mem x (ih y ch (by rw [hs]; simp) hch2)
        · exact List.mem_cons_of_mem x (ih part ch (by rw [hs]; simp [h2]) hch)

theorem not_mem_joinCh (c d : Char) (hdc : d ≠ c) :
    ∀ ps, (∀ p ∈ ps, d ∉ p) → d ∉ joinCh c ps := by
  intro ps
  induction ps with
  | nil =>
    intro _
    simp [joinCh]
  | cons x ys ih =>
    intro h
    rcases ys with _ | ⟨y, zs⟩
    · simpa [joinCh] using h x (by simp)
    · simp only [joinCh]
      intro hmem
      rcases List.mem_append.mp hmem with hm | hm
      · exact h x (by simp) hm
      · rcases List.mem_cons.mp hm with rfl | hm2
        · exact hdc rfl
        · exact ih (fun p hp => h p (by simp [List.mem_cons.mp hp])) hm2

theorem isPrefixOf_append_self (l t : List Char) : l.isPrefixOf (l ++ t) = true := by
  rw [List.isPrefixOf_iff_prefix]
  exact List.prefix_append l t

theorem fromStr_concat_form (s : List Char) (init : List (List Char))
    (last : List Char) (hsplit : splitCh '/' s = init ++ [last])
    (image : List Char) (rest : List (List Char))
    (hv : splitCh ':' last = image :: rest) :
    PluginUri.fromStr s =
      ⟨if init ≠ [] then
          (if httpPrefix.isPrefixOf (joinCh '/' init) ||
              httpsPrefix.isPrefixOf (joinCh '/' init) then
            some (joinCh '/' init)
          else some (httpsPrefix ++ joinCh '/' init))
        else none,
       image,
       if rest ≠ [] then some (joinCh ':' rest) else none⟩ := by
  simp only [PluginUri.fromStr, hsplit, List.getLast?_concat, List.dropLast_concat]
  by_cases hi : init ≠ []
  · by_cases hp : (httpPrefix.isPrefixOf (joinCh '/' init) ||
        httpsPrefix.isPrefixOf (joinCh '/' init)) = true
    · simp only [if_pos hi, if_pos hp, hv]
    · simp only [if_pos hi, if_neg hp, hv]
  · simp only [if_neg hi, hv]

theorem fromStr_cases (s : List Char) :
    ∃ init last image rest,
      splitCh '/' s = init ++ [last] ∧
      splitCh ':' last = image :: rest ∧
      PluginUri.fromStr s =
        ⟨if init ≠ [] then
            (if httpPrefix.isPrefixOf (joinCh '/' init) ||
                httpsPrefix.isPrefixOf (joinCh '/' init) then
              some (joinCh '/' init)
            else some (httpsPrefix ++ joinCh '/' init))
          else none,
         image,
         if rest ≠ [] then some (joinCh ':' rest) else none⟩ := by
  rcases List.eq_nil_or_concat (splitCh '/' s) with hnil | ⟨init, last, hsplit⟩
  · exact absurd hnil (splitCh_ne_nil _ s)
  · rw [List.concat_eq_append] at hsplit
    rcases hv : splitCh ':' last with _ | ⟨image, rest⟩
    · exact absurd hv (splitCh_ne_nil _ last)
    · exact ⟨init, last, image, rest, hsplit, hv,
        fromStr_concat_form s init last hsplit image rest hv⟩

theorem fromStr_shape (s : List Char) :
    ('/' ∉ (PluginUri.fromStr s).image ∧ ':' ∉ (PluginUri.fromStr s).image) ∧
    (∀ v, (PluginUri.fromStr s).version = some v → '/' ∉ v) ∧
    (∀ r, (PluginUri.fromStr s).registry = some r →
      (httpPrefix.isPrefixOf r || httpsPrefix.isPrefixOf r) = true) := by
  obtain ⟨init, last, image, rest, hsplit, hv, heq⟩ := fromStr_cases s
  have hlastmem : last ∈ splitCh '/' s := by
    rw [hsplit]
    simp
  have hlast : '/' ∉ last := not_mem_of_mem_splitCh _ _ _ hlastmem
  have himgmem : image ∈ splitCh ':' last := by
    rw [hv]
    simp
  have himg_colon : ':' ∉ image := not_mem_of_mem_splitCh _ _ _ himgmem
  have himg_slash : '/' ∉ image :=
    fun hc => hlast (mem_of_mem_splitCh _ _ _ _ himgmem hc)
  refine ⟨?_, ?_, ?_⟩
  · rw [heq]
    exact ⟨himg_slash, himg_colon⟩
  · intro v hvv
    rw [heq] at hvv
    have hvv2 : (if rest ≠ [] then some (joinCh ':' rest) else none) = some v := hvv
    by_cases hr : rest = []
    · rw [if_neg (fun hcon => hcon hr)] at hvv2
      cases hvv2
    · rw [if_pos hr] at hvv2
      injection hvv2 with h2
      subst h2
      apply not_mem_joinCh ':' '/' (by decide)
      intro p hp hc
      exact hlast (mem_of_mem_splitCh ':' last p '/' (by rw [hv]; simp [hp]) hc)
  · intro r hr
    rw [heq] at hr
    have hr2 : (if init ≠ [] then
        (if httpPrefix.isPrefixOf (joinCh '/' init) ||
            httpsPrefix.isPrefixOf (joinCh '/' init) then
          some (joinCh '/' init)
        else some (httpsPrefix ++ joinCh '/' init))
      else none) = some r := hr
    by_cases hi : init = []
    · rw [if_neg (fun hcon => hcon hi)] at hr2
      cases hr2
    · rw [if_pos hi] at hr2
      by_cases hp : (httpPrefix.isPrefixOf (joinCh '/' init) ||
          httpsPrefix.isPrefixOf (joinCh '/' init)) = true
      · rw [if_pos hp] at hr2
        injection hr2 with h2
        subst h2
        exact hp
      · rw [if_neg hp] at hr2
        injection hr2 with h2
        subst h2
        rw [Bool.or_eq_true]
        right
        exact isPrefixOf_append_self _ _

theorem fromStr_display (reg : Option (List Char)) (img : List Char)
    (ver : Option (List Char))
    (himg_slash : '/' ∉ img) (himg_colon : ':' ∉ img)
    (hver : ∀ v, ver = some v → '/' ∉ v)
    (hreg : ∀ r, reg = some r →
      (httpPrefix.isPrefixOf r || httpsPrefix.isPrefixOf r) = true) :
    PluginUri.fromStr (PluginUri.display ⟨reg, img, ver⟩) = ⟨reg, img, ver⟩ := by
  rcases reg with _ | r
  · rcases ver with _ | v
    · have hdisp : PluginUri.display ⟨none, img, none⟩ = img := by
        simp [PluginUri.display]
      rw [hdisp]
      rw [fromStr_concat_form img [] img
        (by rw [List.nil_append]; exact splitCh_of_not_mem _ _ himg_slash)
        img [] (splitCh_of_not_mem _ _ himg_colon)]
      try simp
    · have hv : '/' ∉ v := hver v rfl
      have hdisp : PluginUri.display ⟨none, img, some v⟩ = img ++ ':' :: v := by
        simp [PluginUri.display]
      rw [hdisp]
      have hnos : '/' ∉ img ++ ':' :: v := by
        intro hc
        rcases List.mem_append.mp hc with hc2 | hc2
        · exact himg_slash hc2
        · rcases List.mem_cons.mp hc2 with hc3 | hc3
          · cases hc3
          · exact hv hc3
      have hcolon : splitCh ':' (img ++ ':' :: v) = img :: splitCh ':' v := by
        rw [splitCh_append_cons, splitCh_of_not_mem _ _ himg_colon]
        rfl
      rw [fromStr_concat_form (img ++ ':' :: v) [] (img ++ ':' :: v)
        (by rw [List.nil_append]; exact splitCh_of_not_mem _ _ hnos)
        img (splitCh ':' v) hcolon]
      rw [if_pos (splitCh_ne_nil ':' v), joinCh_splitCh]
      try simp
  · have hrpre := hreg r rfl
    rcases ver with _ | v
    · have hdisp : PluginUri.display ⟨some r, img, none⟩ = r ++ '/' :: img := by
        simp [PluginUri.display]
      rw [hdisp]
      have hsplit : splitCh '/' (r ++ '/' :: img) = splitCh '/' r ++ [img] := by
        rw [splitCh_append_cons, splitCh_of_not_mem _ _ himg_slash]
      rw [fromStr_concat_form (r ++ '/' :: img) (splitCh '/' r) img hsplit
        img [] (splitCh_of_not_mem _ _ himg_colon)]
      rw [if_pos (splitCh_ne_nil '/' r), joinCh_splitCh, if_pos hrpre]
      try simp
    · have hv : '/' ∉ v := hver v rfl
      have hdisp : PluginUri.display ⟨some r, img, some v⟩ =
          r ++ '/' :: (img ++ ':' :: v) := by
        simp [PluginUri.display]
      rw [hdisp]
      have hnos : '/' ∉ img ++ ':' :: v := by
        intro hc
        rcases List.mem_append.mp hc with hc2 | hc2
        · exact himg_slash hc2
        · rcases List.mem_cons.mp hc2 with hc3 | hc3
          · cases hc3
          · exact hv hc3
      have hsplit : splitCh '/' (r ++ '/' :: (img ++ ':' :: v)) =
          splitCh '/' r ++ [img ++ ':' :: v] := by
        rw [splitCh_append_cons, splitCh_of_not_mem _ _ hnos]
      have hcolon : splitCh ':' (img ++ ':' :: v) = img :: splitCh ':' v := by
        rw [splitCh_append_cons, splitCh_of_not_mem _ _ himg_colon]
        rfl
      rw [fromStr_concat_form (r ++ '/' :: (img ++ ':' :: v)) (splitCh '/' r)
        (img ++ ':' :: v) hsplit img (splitCh ':' v) hcolon]
      rw [if_pos (splitCh_ne_nil '/' r), joinCh_splitCh, if_pos hrpre,
        if_pos (splitCh_ne_nil ':' v), joinCh_splitCh]

/-- C8: parsing is idempotent across printing - for every input string,
reparsing the printed form of the parse yields the same registry, image
and version components. -/
theorem pluginUri_parse_display_stable (s : List Char) :
    PluginUri.fromStr (PluginUri.display (PluginUri.fromStr s)) =
      PluginUri.fromStr s := by
  obtain ⟨⟨h1, h2⟩, h3, h4⟩ := fromStr_shape s
  rcases hp : PluginUri.fromStr s with ⟨reg, img, ver⟩
  rw [hp] at h1 h2 h3 h4
  exact fromStr_display reg img ver h1 h2 h3 h4

/-!  ## Signature hex decoding (claim C6)  -/

theorem hexDigitVal_byteToUpper (b : Nat) :
    hexDigitVal (byteToUpper b) = hexDigitVal b := by
  unfold byteToUpper hexDigitVal
  split_ifs <;> first | rfl | omega

theorem isCharBoundaryByte_byteToUpper (b : Nat) :
    isCharBoundaryByte (byteToUpper b) = isCharBoundaryByte b := by
  unfold isCharBoundaryByte byteToUpper
  rw [decide_eq_decide]
  split_ifs with h <;> omega

theorem parseDigitsGo_map_byteToUpper :
    ∀ (acc : Nat) (s : List Nat),
      parseDigitsGo acc (s.map byteToUpper) = parseDigitsGo acc s
  | _, [] => rfl
  | acc, b :: rest => by
    simp only [List.map_cons, parseDigitsGo, hexDigitVal_byteToUpper]
    rcases hv : hexDigitVal b with _ | d
    · rfl
    · simp only []
      split
      · exact parseDigitsGo_map_byteToUpper _ rest
      · rfl

theorem byteToUpper_eq_43_iff (b : Nat) : byteToUpper b = 43 ↔ b = 43 := by
  unfold byteToUpper
  split_ifs with h <;> omega

theorem fromStrRadix16U8_map_byteToUpper (s : List Nat) :
    fromStrRadix16U8 (s.map byteToUpper) = fromStrRadix16U8 s := by
  cases s with
  | nil => rfl
  | cons b0 rest =>
    simp only [List.map_cons, fromStrRadix16U8]
    by_cases h0 : b0 = 43
    · rw [if_pos ((byteToUpper_eq_43_iff b0).mpr h0), if_pos h0]
      by_cases h1 : rest = []
      · rw [if_pos (show List.map byteToUpper rest = [] by simp [h1]), if_pos h1]
      · rw [if_neg (show ¬ List.map byteToUpper rest = [] by simp [h1]), if_neg h1,
          parseDigitsGo_map_byteToUpper]
    · rw [if_neg (fun hc => h0 ((byteToUpper_eq_43_iff b0).mp hc)), if_neg h0,
        ← List.map_cons, parseDigitsGo_map_byteToUpper]

theorem decodeHexGo_map_byteToUpper :
    ∀ (first : Bool) (s : List Nat),
      decodeHexGo first (s.map byteToUpper) = decodeHexGo first s
  | _, [] => rfl
  | _, [_] => rfl
  | first, b0 :: b1 :: rest => by
    simp only [List.map_cons, decodeHexGo]
    have hb : isCharBoundaryByte (byteToUpper b0) = isCharBoundaryByte b0 :=
      isCharBoundaryByte_byteToUpper b0
    have hnil : decide (List.map byteToUpper rest = []) = decide (rest = []) := by
      rw [decide_eq_decide]
      exact List.map_eq_nil_iff
    have hhead : isCharBoundaryByte ((List.map byteToUpper rest).headD 0)
        = isCharBoundaryByte (rest.headD 0) := by
      cases rest with
      | nil => rfl
      | cons c cs => exact isCharBoundaryByte_byteToUpper c
    have hchunk : fromStrRadix16U8 [byteToUpper b0, byteToUpper b1]
        = fromStrRadix16U8 [b0, b1] := fromStrRadix16U8_map_byteToUpper [b0, b1]
    rw [hb, hnil, hhead, hchunk]
    rcases hc : fromStrRadix16U8 [b0, b1] with _ | v
    · rfl
    · rw [decodeHexGo_map_byteToUpper false rest]

theorem decode_hex_map_byteToUpper (s : List Nat) :
    decode_hex (s.map byteToUpper) = decode_hex s := by
  unfold decode_hex
  rw [List.length_map, decodeHexGo_map_byteToUpper]

theorem hexDigitVal_lt (b d : Nat) (h : hexDigitVal b = some d) : d ≤ 15 := by
  unfold hexDigitVal at h
  split_ifs at h <;> (simp only [Option.some.injEq] at h; omega)

/-- C6 (amended): behavior of signature hex handling over the signature's
UTF-8 bytes.  (i) An odd or short byte length is `Error::Parse` before any
slicing or cryptography.  (ii) A two-byte chunk parses as: a leading `+`
(byte 43) then one hex digit, or two hex digits in either case - a `-` is
not consumed by the unsigned `u8::from_str_radix` and fails as a digit.
(iii) For a well-formed length, a slice panic in the chunk loop (a chunk
end inside a multi-byte character) propagates, a failing chunk is
`Error::Parse`, and when every chunk decodes the result hinges on the DER
parse and ECDSA verification oracles: either failing is
`Error::Signature`, both passing is ok.  (iv) Decoding is invariant under
ASCII uppercasing of the signature. -/
theorem is_valid_decode_spec (derOk : List Nat → Bool)
    (verifyOk : List Nat → List Nat → Bool) (bytes s : List Nat) :
    (s.length < 2 ∨ s.length % 2 ≠ 0 →
      is_valid derOk verifyOk bytes s =
        some (.error (.Parse "input must have a length that is a multiple 2"))) ∧
    (∀ b0 b1, fromStrRadix16U8 [b0, b1] =
      if b0 = 43 then hexDigitVal b1
      else
        match hexDigitVal b0, hexDigitVal b1 with
        | some d0, some d1 => some (d0 * 16 + d1)
        | _, _ => none) ∧
    (¬ (s.length < 2 ∨ s.length % 2 ≠ 0) →
      (decodeHexGo true s = none → is_valid derOk verifyOk bytes s = none) ∧
      (∀ e, decodeHexGo true s = some (.error e) →
        is_valid derOk verifyOk bytes s = some (.error e)) ∧
      (∀ hex, decodeHexGo true s = some (.ok hex) →
        (derOk hex = false →
          is_valid derOk verifyOk bytes s =
            some (.error (.Signature "signature error"))) ∧
        (derOk hex = true → verifyOk bytes hex = false →
          is_valid derOk verifyOk bytes s =
            some (.error (.Signature "signature error"))) ∧
        (derOk hex = true → verifyOk bytes hex = true →
          is_valid derOk verifyOk bytes s = some (.ok ())))) ∧
    decode_hex (s.map byteToUpper) = decode_hex s := by
  refine ⟨?_, ?_, ?_, decode_hex_map_byteToUpper s⟩
  · intro h
    simp only [is_valid, decode_hex, if_pos h]
  · intro b0 b1
    by_cases h0 : b0 = 43
    · rw [if_pos h0]
      simp only [fromStrRadix16U8, if_pos h0,
        if_neg (show ¬ ([b1] : List Nat) = [] from fun hc => List.noConfusion hc)]
      simp only [parseDigitsGo]
      rcases hv : hexDigitVal b1 with _ | d
      · rfl
      · try simp only []
        have hd := hexDigitVal_lt b1 d hv
        rw [if_pos (show 0 * 16 + d ≤ 255 by omega)]
        simp only [parseDigitsGo, Option.some.injEq]
        omega
    · rw [if_neg h0]
      simp only [fromStrRadix16U8, if_neg h0, parseDigitsGo]
      rcases hv0 : hexDigitVal b0 with _ | d0
      · rfl
      · try simp only []
        have hd0 := hexDigitVal_lt b0 d0 hv0
        rw [if_pos (show 0 * 16 + d0 ≤ 255 by omega)]
        try simp only [parseDigitsGo]
        rcases hv1 : hexDigitVal b1 with _ | d1
        · rfl
        · try simp only []
          have hd1 := hexDigitVal_lt b1 d1 hv1
          rw [if_pos (show (0 * 16 + d0) * 16 + d1 ≤ 255 by omega)]
          simp only [parseDigitsGo, Option.some.injEq]
          omega
  · intro h
    refine ⟨?_, ?_, ?_⟩
    · intro hnone
      simp only [is_valid, decode_hex, if_neg h, hnone]
    · intro e herr
      simp only [is_valid, decode_hex, if_neg h, herr]
    · intro hex hok
      refine ⟨?_, ?_, ?_⟩
      · intro hder
        simp only [is_valid, decode_hex, if_neg h, hok, hder]
        rfl
      · intro hder hver
        simp only [is_valid, decode_hex, if_neg h, hok, hder, hver]
        rfl
      · intro hder hver
        simp only [is_valid, decode_hex, if_neg h, hok, hder, hver]
        rfl

/-- Witness for C6 at concrete inputs: the odd-byte-length signature
`"123"` is a Parse error; `"0A0a"` decodes (both cases accepted) and
verification success yields ok. -/
theorem is_valid_decode_spec_witness :
    is_valid (fun _ => true) (fun _ _ => true) [] [49, 50, 51] =
      some (.error (.Parse "input must have a length that is a multiple 2")) ∧
    is_valid (fun _ => true) (fun _ _ => true) [] [48, 65, 48, 97] = some (.ok ()) :=
  ⟨(is_valid_decode_spec _ _ _ _).1 (by decide),
   (((is_valid_decode_spec (fun _ => true) (fun _ _ => true) [] [48, 65, 48, 97]).2.2.1
      (by decide)).2.2 [10, 10] (by decide)).2.2 rfl rfl⟩

/-- C6 counterexample: the claim requires `Error::Parse` for every
signature containing a non-hex character, before any cryptography.  The
signature `"+1"` (bytes 43, 49) contains the non-hex `+`, yet the unsigned
`u8::from_str_radix` consumes the leading `+` and `decode_hex` succeeds,
so `is_valid` reaches the cryptographic stage and returns a Signature
error (or ok).  The signature `"1é2"` (bytes 49, 195, 169, 50) contains
the non-hex `é`, and `decode_hex` panics - the slice `&s[0..2]` ends
inside the two-byte character - instead of returning any error. -/
theorem is_valid_nonhex_not_parse :
    hexDigitVal 43 = none ∧
    decode_hex [43, 49] = some (.ok [1]) ∧
    is_valid (fun _ => false) (fun _ _ => false) [] [43, 49] =
      some (.error (.Signature "signature error")) ∧
    decode_hex [49, 195, 169, 50] = none ∧
    is_valid (fun _ => false) (fun _ _ => false) [] [49, 195, 169, 50] = none := by
  refine ⟨?_, ?_, ?_, ?_, ?_⟩ <;> decide

/-- C7 (amended): per-relocation behavior of the ELF relocation loop, for a
record of `w`-byte native pointer width spanning `[vaStart, vaEnd)`:
(1) a relocation whose `r_offset` falls outside the range never alters the
record; (2) if the field at `r_offset - vaStart` is already non-zero it is
left unchanged; (3) if the field is zero and the relocation type is not one
of {8, 23, 1027} the parse fails with `Error::Parse`; (4) if the field is
zero and the type is relative, the field becomes the addend reduced modulo
`2 ^ (8 w)` (the old value `0` wrapping-added with the signed addend at the
native width) - but only provided the addend survives the
`num_traits::cast(..).unwrap()` calls: it is not `i64::MIN` (whose negation
overflows) and its magnitude fits `w` bytes; (5) outside that range the
code panics (`none`) instead of wrapping, which is where the original claim
fails (see the counterexample); (6) a relocation that errors aborts the
whole loop with that error. -/
theorem elf_apply_reloc_cases (w vaStart vaEnd : Nat) (r : Reloc) (obj : List Nat) :
    (¬ (vaStart ≤ r.r_offset ∧ r.r_offset < vaEnd) →
      elfApplyReloc w vaStart vaEnd r obj = some (Except.ok obj)) ∧
    (∀ value, vaStart ≤ r.r_offset → r.r_offset < vaEnd →
      readLE obj (r.r_offset - vaStart) w = some value → value ≠ 0 →
      elfApplyReloc w vaStart vaEnd r obj = some (Except.ok obj)) ∧
    (vaStart ≤ r.r_offset → r.r_offset < vaEnd →
      readLE obj (r.r_offset - vaStart) w = some 0 →
      ¬ (r.r_type = 8 ∨ r.r_type = 23 ∨ r.r_type = 1027) →
      elfApplyReloc w vaStart vaEnd r obj =
        some (Except.error (Error.Parse "only relative relocations are supported right now"))) ∧
    (vaStart ≤ r.r_offset → r.r_offset < vaEnd →
      readLE obj (r.r_offset - vaStart) w = some 0 →
      (r.r_type = 8 ∨ r.r_type = 23 ∨ r.r_type = 1027) →
      r.r_addend.getD 0 ≠ -(2 ^ 63) →
      -(((2 ^ (8 * w) : Nat) : Int)) < r.r_addend.getD 0 →
      r.r_addend.getD 0 < ((2 ^ (8 * w) : Nat) : Int) →
      elfApplyReloc w vaStart vaEnd r obj =
        some (Except.ok (writeLE obj (r.r_offset - vaStart) w
          ((r.r_addend.getD 0 % ((2 ^ (8 * w) : Nat) : Int)).toNat)))) ∧
    (vaStart ≤ r.r_offset → r.r_offset < vaEnd →
      readLE obj (r.r_offset - vaStart) w = some 0 →
      (r.r_type = 8 ∨ r.r_type = 23 ∨ r.r_type = 1027) →
      (r.r_addend.getD 0 = -(2 ^ 63) ∨
        r.r_addend.getD 0 ≤ -(((2 ^ (8 * w) : Nat) : Int)) ∨
        ((2 ^ (8 * w) : Nat) : Int) ≤ r.r_addend.getD 0) →
      elfApplyReloc w vaStart vaEnd r obj = none) ∧
    (∀ e rest, elfApplyReloc w vaStart vaEnd r obj = some (Except.error e) →
      elfApplyRelocsList w vaStart vaEnd (r :: rest) obj = some (Except.error e)) := by
  have hpow : ((2 ^ (8 * w) : Nat) : Int) = 2 ^ (8 * w) := by push_cast; ring
  have hMpos : 0 < 2 ^ (8 * w) := pow_pos (by omega) (8 * w)
  refine ⟨?_, ?_, ?_, ?_, ?_, ?_⟩
  · intro h
    unfold elfApplyReloc
    rw [if_neg h]
  · intro value h1 h2 hread hne
    unfold elfApplyReloc
    rw [if_pos ⟨h1, h2⟩]
    simp only [hread]
    rw [if_pos hne]
  · intro h1 h2 hread htype
    unfold elfApplyReloc
    rw [if_pos ⟨h1, h2⟩]
    simp only [hread]
    rw [if_neg (show ¬ (0 : Nat) ≠ 0 from fun h => h rfl)]
    rw [if_pos (show r.r_type ≠ 8 ∧ r.r_type ≠ 23 ∧ r.r_type ≠ 1027 from
      ⟨fun h => htype (Or.inl h), fun h => htype (Or.inr (Or.inl h)),
        fun h => htype (Or.inr (Or.inr h))⟩)]
  · intro h1 h2 hread htype hmin hlow hhigh
    unfold elfApplyReloc
    rw [if_pos ⟨h1, h2⟩]
    simp only [hread]
    rw [if_neg (show ¬ (0 : Nat) ≠ 0 from fun h => h rfl)]
    rw [if_neg (show ¬ (r.r_type ≠ 8 ∧ r.r_type ≠ 23 ∧ r.r_type ≠ 1027) from
      fun hc => by rcases htype with h | h | h; exacts [hc.1 h, hc.2.1 h, hc.2.2 h])]
    set A := r.r_addend.getD 0 with hA
    by_cases hpos : 0 < A
    · rw [if_pos hpos]
      rw [if_pos (show A < 2 ^ (8 * w) from hpow ▸ hhigh)]
      have hAM : A.toNat < 2 ^ (8 * w) := by omega
      have hv : (0 + A.toNat) % 2 ^ (8 * w) = (A % ((2 ^ (8 * w) : Nat) : Int)).toNat := by
        rw [Nat.zero_add, Nat.mod_eq_of_lt hAM, Int.emod_eq_of_lt (le_of_lt hpos) hhigh]
      rw [hv]
    · rw [if_neg hpos, if_neg hmin]
      rw [if_pos (show -A < 2 ^ (8 * w) from hpow ▸ (by omega : -A < ((2 ^ (8 * w) : Nat) : Int)))]
      have hA0 : A ≤ 0 := le_of_not_lt hpos
      rcases eq_or_lt_of_le hA0 with hz | hneg
      · have hv : (0 + (2 ^ (8 * w) - (-A).toNat)) % 2 ^ (8 * w)
            = (A % ((2 ^ (8 * w) : Nat) : Int)).toNat := by
          rw [hz]
          simp [Nat.mod_self]
        rw [hv]
      · have hmlt : (-A).toNat < 2 ^ (8 * w) := by omega
        have hmpos : 0 < (-A).toNat := by omega
        have hmod : A % ((2 ^ (8 * w) : Nat) : Int) = A + ((2 ^ (8 * w) : Nat) : Int) := by
          have h1 : (A + ((2 ^ (8 * w) : Nat) : Int) * 1) % ((2 ^ (8 * w) : Nat) : Int)
              = A % ((2 ^ (8 * w) : Nat) : Int) :=
            Int.add_mul_emod_self_left A ((2 ^ (8 * w) : Nat) : Int) 1
          rw [mul_one] at h1
          rw [← h1]
          exact Int.emod_eq_of_lt (by omega) (by omega)
        have hv : (0 + (2 ^ (8 * w) - (-A).toNat)) % 2 ^ (8 * w)
            = (A % ((2 ^ (8 * w) : Nat) : Int)).toNat := by
          rw [Nat.zero_add, Nat.mod_eq_of_lt (by omega), hmod]
          omega
        rw [hv]
  · intro h1 h2 hread htype hbad
    unfold elfApplyReloc
    rw [if_pos ⟨h1, h2⟩]
    simp only [hread]
    rw [if_neg (show ¬ (0 : Nat) ≠ 0 from fun h => h rfl)]
    rw [if_neg (show ¬ (r.r_type ≠ 8 ∧ r.r_type ≠ 23 ∧ r.r_type ≠ 1027) from
      fun hc => by rcases htype with h | h | h; exacts [hc.1 h, hc.2.1 h, hc.2.2 h])]
    set A := r.r_addend.getD 0 with hA
    by_cases hpos : 0 < A
    · rw [if_pos hpos]
      have hge : ((2 ^ (8 * w) : Nat) : Int) ≤ A := by
        rcases hbad with h | h | h
        · exfalso; rw [h] at hpos; norm_num at hpos
        · exfalso; omega
        · exact h
      rw [if_neg (show ¬ A < 2 ^ (8 * w) from hpow ▸ (by omega : ¬ A < ((2 ^ (8 * w) : Nat) : Int)))]
    · rw [if_neg hpos]
      by_cases hm : A = -(2 ^ 63)
      · rw [if_pos hm]
      · rw [if_neg hm]
        have hle : A ≤ -(((2 ^ (8 * w) : Nat) : Int)) := by
          rcases hbad with h | h | h
          · exact absurd h hm
          · exact h
          · exfalso; omega
        rw [if_neg (show ¬ -A < 2 ^ (8 * w) from
          hpow ▸ (by omega : ¬ -A < ((2 ^ (8 * w) : Nat) : Int)))]
  · intro e rest h
    simp only [elfApplyRelocsList, h]

/-- Witness for the amended C7 theorem: a 32-bit record with a zero field,
one relative relocation (type 8) with addend `-5`; the field becomes
`-5 mod 2^32` by the wrapping-subtraction path. -/
theorem elf_apply_reloc_cases_witness :
    elfApplyReloc 4 0 4 ⟨0, 8, some (-5)⟩ [0, 0, 0, 0] =
      some (Except.ok (writeLE [0, 0, 0, 0] 0 4
        ((((-5 : Int) % ((2 ^ (8 * 4) : Nat) : Int)).toNat)))) :=
  (elf_apply_reloc_cases 4 0 4 ⟨0, 8, some (-5)⟩ [0, 0, 0, 0]).2.2.2.1
    (by decide) (by decide) (by decide) (Or.inl rfl) (by decide) (by decide) (by decide)

/-- C7 counterexample: the claim says an in-range, zero-field, relative-type
relocation always wrapping-adds the signed addend at the native width, but
the code's `num_traits::cast(..).unwrap()` panics instead of wrapping when
the addend is `i64::MIN` (negation overflow, 64-bit record) or when a
positive addend does not fit the 32-bit width - the model returns `none`
(panic), not a wrapped write. -/
theorem elf_reloc_wrapping_not_total :
    elfApplyReloc 8 0 96 ⟨0, 1027, some (-(2 ^ 63))⟩ (List.replicate 12 0) = none ∧
    elfApplyReloc 4 0 96 ⟨0, 8, some (2 ^ 32)⟩ (List.replicate 12 0) = none := by
  exact ⟨by decide, by decide⟩

end MemflowRegistry
